import Mathlib

set_option maxRecDepth 16384

/-!
Shallow embedding of the CMap engine of `hayro-interpret`
(`src/hayro-interpret/src/font/cmap.rs`) and proofs about it.

Machine integers are modelled as `Nat` with explicit `% 2^w` where the Rust
code can wrap (the repository is compiled in release mode, where integer
overflow wraps).  Rust `u8` buffers are `List Nat` whose entries are reduced
`% 256` at each use, encoding the `u8` type invariant.  Rust `String`s are
`List Nat` of Unicode code points; `HashMap<u32, u32>` is an association list
where an insert prepends and a get takes the first hit (later inserts shadow
earlier ones, exactly the observable behaviour of the hash map under the
operations the source performs: `insert`, `get`, `is_empty`).
-/

namespace Hayro

/-- `2^32`, the modulus of Rust `u32` arithmetic. -/
def U32MOD : Nat := 2 ^ 32

/-- `2^64`, the modulus of Rust `usize`/`u64` arithmetic. -/
def U64MOD : Nat := 2 ^ 64

/-- `const MAX_MAP_RANGE: u32 = (1 << 24) - 1` (cmap.rs line 6). -/
def MAX_MAP_RANGE : Nat := (1 <<< 24) - 1

/-- Wrapping `u32` subtraction `a - b` for `a b < 2^32` (release-mode Rust
wraps on underflow). -/
def u32sub (a b : Nat) : Nat := (a + U32MOD - b) % U32MOD

/-- Wrapping `usize` subtraction for `a b < 2^64`. -/
def usizeSub (a b : Nat) : Nat := (a + U64MOD - b) % U64MOD

/-- Code points of a Lean string, used to write Rust string literals and
byte-string test inputs (all literals used are ASCII, one byte per char). -/
def strCodes (s : String) : List Nat := s.data.map Char.toNat

/-! ## The CMap value table (struct CMap, cmap.rs lines 10-16) -/

/-- `struct CMap`.  `codespace_ranges: [Vec<u32>; 4]` is modelled as four
flat lists (index = code byte-length minus one), each holding alternating
`low`, `high` bounds exactly as the `Vec<u32>` does. -/
structure CMap where
  ranges1 : List Nat
  ranges2 : List Nat
  ranges3 : List Nat
  ranges4 : List Nat
  map : List (Nat × Nat)
  name : List Nat
  vertical : Bool
deriving DecidableEq, Repr

namespace CMap

/-- `CMap::new()` (lines 19-26). -/
def new : CMap := ⟨[], [], [], [], [], [], false⟩

/-- `self.codespace_ranges[n]` for the 0-based index `n` used in
`read_code`. -/
def rangesAt (c : CMap) : Nat → List Nat
  | 0 => c.ranges1
  | 1 => c.ranges2
  | 2 => c.ranges3
  | 3 => c.ranges4
  | _ => []

/-- HashMap insert: `self.map.insert(src, dst)`. -/
def mapInsert (m : List (Nat × Nat)) (k v : Nat) : List (Nat × Nat) :=
  (k, v) :: m

/-- HashMap get: `self.map.get(&code)`. -/
def mapGet (m : List (Nat × Nat)) (k : Nat) : Option Nat :=
  (m.find? (fun p => p.1 = k)).map (·.2)

/-- `CMap::add_codespace_range` (lines 60-65): push `low, high` onto the
length-`n` list when `1 ≤ n ≤ 4`, silently ignore otherwise. -/
def add_codespace_range (c : CMap) (n low high : Nat) : CMap :=
  if n = 1 then { c with ranges1 := c.ranges1 ++ [low, high] }
  else if n = 2 then { c with ranges2 := c.ranges2 ++ [low, high] }
  else if n = 3 then { c with ranges3 := c.ranges3 ++ [low, high] }
  else if n = 4 then { c with ranges4 := c.ranges4 ++ [low, high] }
  else c

/-- `CMap::identity_h()` (lines 28-35). -/
def identity_h : CMap :=
  let c := { new with name := strCodes "Identity-H", vertical := false }
  c.add_codespace_range 2 0 0xFFFF

/-- `CMap::identity_v()` (lines 37-44). -/
def identity_v : CMap :=
  let c := { new with name := strCodes "Identity-V", vertical := true }
  c.add_codespace_range 2 0 0xFFFF

/-- `CMap::is_identity_cmap` (lines 134-136). -/
def is_identity_cmap (c : CMap) : Bool :=
  (decide (c.name = strCodes "Identity-H") ||
      decide (c.name = strCodes "Identity-V")) &&
    c.map.isEmpty

/-- `CMap::lookup_code` (lines 50-58). -/
def lookup_code (c : CMap) (code : Nat) : Option Nat :=
  match mapGet c.map code with
  | some v => some v
  | none =>
    if c.is_identity_cmap then
      if code ≤ 0xFFFF then some code else none
    else none

/-- `CMap::map_one` (lines 130-132). -/
def map_one (c : CMap) (src dst : Nat) : CMap :=
  { c with map := mapInsert c.map src dst }

/-- Effect of the `while current_low <= high` loop of `map_cid_range`
(lines 72-78), iterated `k` times.  The Rust loop runs exactly
`high + 1 - low` iterations and both counters are wrapping `u32`
increments; when `high = u32::MAX` the Rust loop never terminates (the
condition `current_low <= high` is a tautology), so the model is only
used for `high < 2^32 - 1` in the theorems below. -/
def cidRangeLoop (m : List (Nat × Nat)) (low dst : Nat) : Nat → List (Nat × Nat)
  | 0 => m
  | k + 1 => cidRangeLoop (mapInsert m low dst) ((low + 1) % U32MOD) ((dst + 1) % U32MOD) k

/-- `CMap::map_cid_range` (lines 67-81). -/
def map_cid_range (c : CMap) (low high dst : Nat) : Option CMap :=
  if u32sub high low > MAX_MAP_RANGE then none
  else some { c with map := cidRangeLoop c.map low dst (high + 1 - low) }

end CMap

/-! ## read_code (lines 138-161) -/

/-- One pass of the inner `for chunk in codespace_range.chunks(2)` loop
(lines 149-157): scan consecutive pairs, a trailing odd element is skipped
by the `chunk.len() == 2` guard. -/
def scanRanges : List Nat → Nat → Bool
  | low :: high :: rest, c => (decide (low ≤ c) && decide (c ≤ high)) || scanRanges rest c
  | _, _ => false

/-- Pair membership in a flat alternating `low, high` list, mirroring the
`chunks(2)` view used by `scanRanges`. -/
def hasPair : List Nat → Nat → Nat → Bool
  | l :: h :: rest, low, high => (decide (l = low) && decide (h = high)) || hasPair rest low high
  | _, _, _ => false

/-- The `for n in 0..bound` loop of `read_code` (lines 141-158), with `k`
iterations left and `n` the current 0-based index.  `c` is the big-endian
accumulator (`c = (c << 8) | byte` in wrapping `u32`). -/
def readCodeLoop (cm : CMap) (bytes : List Nat) (offset : Nat) :
    Nat → Nat → Nat → Nat × Nat
  | _, _, 0 => (0, 1)
  | c, n, k + 1 =>
    if offset + n ≥ bytes.length then (0, 1)
    else
      let c' := ((c <<< 8) % U32MOD) ||| (bytes.getD (offset + n) 0 % 256)
      if scanRanges (cm.rangesAt n) c' then (c', n + 1)
      else readCodeLoop cm bytes offset c' (n + 1) k

/-- `CMap::read_code` (lines 138-161).  The loop bound
`4.min(bytes.len() - offset)` uses wrapping `usize` subtraction; in release
mode `offset > len` makes it huge, so the bound is 4 and the first
iteration's bounds check returns `(0, 1)`. -/
def read_code (cm : CMap) (bytes : List Nat) (offset : Nat) : Nat × Nat :=
  readCodeLoop cm bytes offset 0 0 (min 4 (usizeSub bytes.length offset))

/-! ## bf helpers (lines 164-176) -/

/-- `bf_string_char` (lines 164-166): code point of the first character,
`0` for the empty string. -/
def bf_string_char (s : List Nat) : Nat := s.headD 0

/-- `str_to_int` (lines 168-176): big-endian accumulation
`a = (a << 8) | (ch as u32 & 0xFF)` in wrapping `u32`. -/
def str_to_int (s : List Nat) : Nat :=
  s.foldl (fun a ch => ((a <<< 8) % U32MOD) ||| (ch % 256)) 0

-- quick sanity checks (model vs. the Rust unit tests)
example : CMap.identity_h.lookup_code 0x41 = some 0x41 := by decide
example : CMap.identity_h.lookup_code 0x10000 = none := by decide
example : read_code CMap.identity_h [0x12, 0x34] 0 = (0x1234, 2) := by decide
example : str_to_int [0x00, 0x16] = 0x16 := by decide

/-! ## Rust `String` byte view: UTF-8 encoding and `String::from_utf8_lossy`

`map_bf_range` round-trips the destination string through its UTF-8 bytes
(`into_bytes` / `from_utf8_lossy`), so both directions are embedded.  The
lossy decoder follows Rust's "substitution of maximal subparts": each
error consumes `error_len` bytes (1-3, as reported by the std validator)
and emits one U+FFFD. -/

/-- UTF-8 continuation byte test `0x80..=0xBF`. -/
def isCont (b : Nat) : Bool := decide (0x80 ≤ b) && decide (b ≤ 0xBF)

/-- Valid second byte after a three-byte lead (std validator ranges:
`0xE0: A0..BF`, `0xED: 80..9F` (no surrogates), otherwise `80..BF`). -/
def valid3snd (b0 b1 : Nat) : Bool :=
  if b0 = 0xE0 then decide (0xA0 ≤ b1) && decide (b1 ≤ 0xBF)
  else if b0 = 0xED then decide (0x80 ≤ b1) && decide (b1 ≤ 0x9F)
  else isCont b1

/-- Valid second byte after a four-byte lead (`0xF0: 90..BF`,
`0xF4: 80..8F`, otherwise `80..BF`). -/
def valid4snd (b0 b1 : Nat) : Bool :=
  if b0 = 0xF0 then decide (0x90 ≤ b1) && decide (b1 ≤ 0xBF)
  else if b0 = 0xF4 then decide (0x80 ≤ b1) && decide (b1 ≤ 0x8F)
  else isCont b1

/-- UTF-8 encoding of one Unicode scalar value. -/
def utf8EncodeChar (c : Nat) : List Nat :=
  if c < 0x80 then [c]
  else if c < 0x800 then [0xC0 ||| (c >>> 6), 0x80 ||| (c &&& 0x3F)]
  else if c < 0x10000 then
    [0xE0 ||| (c >>> 12), 0x80 ||| ((c >>> 6) &&& 0x3F), 0x80 ||| (c &&& 0x3F)]
  else
    [0xF0 ||| (c >>> 18), 0x80 ||| ((c >>> 12) &&& 0x3F),
      0x80 ||| ((c >>> 6) &&& 0x3F), 0x80 ||| (c &&& 0x3F)]

/-- `String::into_bytes`: UTF-8 encoding of the code-point list. -/
def utf8Encode (s : List Nat) : List Nat := (s.map utf8EncodeChar).flatten

/-- Fueled lossy UTF-8 decoder; every step consumes at least one byte, so
fuel = list length (supplied by `from_utf8_lossy`) always suffices. -/
def lossyF : Nat → List Nat → List Nat
  | 0, _ => []
  | _ + 1, [] => []
  | f + 1, b0 :: rest =>
    if b0 < 0x80 then b0 :: lossyF f rest
    else if b0 < 0xC2 then 0xFFFD :: lossyF f rest
    else if b0 ≤ 0xDF then
      match rest with
      | [] => [0xFFFD]
      | b1 :: rest1 =>
        if isCont b1 then (((b0 &&& 0x1F) <<< 6) ||| (b1 &&& 0x3F)) :: lossyF f rest1
        else 0xFFFD :: lossyF f rest
    else if b0 ≤ 0xEF then
      match rest with
      | [] => [0xFFFD]
      | b1 :: rest1 =>
        if valid3snd b0 b1 then
          match rest1 with
          | [] => [0xFFFD]
          | b2 :: rest2 =>
            if isCont b2 then
              ((((b0 &&& 0x0F) <<< 12) ||| ((b1 &&& 0x3F) <<< 6)) ||| (b2 &&& 0x3F)) ::
                lossyF f rest2
            else 0xFFFD :: lossyF f rest1
        else 0xFFFD :: lossyF f rest
    else if b0 ≤ 0xF4 then
      match rest with
      | [] => [0xFFFD]
      | b1 :: rest1 =>
        if valid4snd b0 b1 then
          match rest1 with
          | [] => [0xFFFD]
          | b2 :: rest2 =>
            if isCont b2 then
              match rest2 with
              | [] => [0xFFFD]
              | b3 :: rest3 =>
                if isCont b3 then
                  (((((b0 &&& 0x07) <<< 18) ||| ((b1 &&& 0x3F) <<< 12)) |||
                      ((b2 &&& 0x3F) <<< 6)) ||| (b3 &&& 0x3F)) :: lossyF f rest3
                else 0xFFFD :: lossyF f rest2
            else 0xFFFD :: lossyF f rest1
        else 0xFFFD :: lossyF f rest
    else 0xFFFD :: lossyF f rest

/-- `String::from_utf8_lossy(..).to_string()` as a code-point list. -/
def from_utf8_lossy (l : List Nat) : List Nat := lossyF l.length l

namespace CMap

/-- One step of the destination-string update of `map_bf_range`
(lines 94-106): take the UTF-8 bytes, if the last byte is `0xFF` (dead in
practice: `0xFF` never occurs in valid UTF-8) zero it and bump its left
neighbour (wrapping `u8` add in release mode), otherwise increment the
last byte; then decode lossily. -/
def bfStep (s : List Nat) : List Nat :=
  let bytes := utf8Encode s
  let bytes' :=
    match bytes.getLast? with
    | none => bytes
    | some lb =>
      if lb = 0xFF then
        if bytes.length > 1 then
          (bytes.set (bytes.length - 2) ((bytes.getD (bytes.length - 2) 0 + 1) % 256)).set
            (bytes.length - 1) 0
        else bytes
      else bytes.dropLast ++ [(lb + 1) % 256]
  from_utf8_lossy bytes'

/-- The `while current_low <= high` loop of `map_bf_range` (lines 91-108),
iterated `k = high + 1 - low` times (same divergence caveat at
`high = u32::MAX` as `cidRangeLoop`). -/
def bfRangeLoop (m : List (Nat × Nat)) (low : Nat) (dst : List Nat) :
    Nat → List (Nat × Nat)
  | 0 => m
  | k + 1 =>
    bfRangeLoop (mapInsert m low (bf_string_char dst)) ((low + 1) % U32MOD) (bfStep dst) k

/-- `CMap::map_bf_range` (lines 83-111). -/
def map_bf_range (c : CMap) (low high : Nat) (dst : List Nat) : Option CMap :=
  if u32sub high low > MAX_MAP_RANGE then none
  else some { c with map := bfRangeLoop c.map low dst (high + 1 - low) }

/-- The `while current_low <= high && i < array.len()` loop of
`map_bf_range_to_array` (lines 121-125). -/
def arrayRangeLoop (m : List (Nat × Nat)) (low : Nat) :
    Nat → List Nat → List (Nat × Nat)
  | 0, _ => m
  | _ + 1, [] => m
  | k + 1, v :: rest => arrayRangeLoop (mapInsert m low v) ((low + 1) % U32MOD) k rest

/-- `CMap::map_bf_range_to_array` (lines 113-128). -/
def map_bf_range_to_array (c : CMap) (low high : Nat) (arr : List Nat) : Option CMap :=
  if u32sub high low > MAX_MAP_RANGE then none
  else some { c with map := arrayRangeLoop c.map low (high + 1 - low) arr }

end CMap

-- sanity: the byte increment goes through UTF-8, not through char codes
example : CMap.bfStep [0x41] = [0x42] := by decide
example : CMap.bfStep [0x7F] = [0xFFFD] := by decide
example : CMap.bfStep [0xFF] = [0xFFFD, 0xFFFD] := by decide
example : utf8Encode [0xFF] = [0xC3, 0xBF] := by decide
example : from_utf8_lossy [0x41, 0xC3, 0xA9] = [0x41, 0xE9] := by decide

/-! ## Tokenizer (enum Token, struct CMapLexer, lines 201-409)

Every `while` loop takes explicit fuel; fuel exhaustion returns `none`.
All call sites pass `input.length + 2`, which is proved sufficient in the
termination section (positions never exceed `input.length + 1`). -/

/-- `enum Token` (lines 201-209).  `str` carries code points, `hexString`
raw bytes, `int` an `i32` value. -/
inductive Token where
  | str (s : List Nat)
  | hexString (b : List Nat)
  | int (i : Int)
  | command (s : List Nat)
  | name (s : List Nat)
  | eof
deriving DecidableEq, Repr

/-- `struct CMapLexer` (lines 211-214): the input byte slice and the
current position. -/
structure Lexer where
  input : List Nat
  position : Nat
deriving DecidableEq, Repr

namespace Lexer

/-- `self.input.len()`. -/
def len (lx : Lexer) : Nat := lx.input.length

/-- `self.input[i]` (entries are `u8`, hence the `% 256`). -/
def byte (lx : Lexer) (i : Nat) : Nat := lx.input.getD i 0 % 256

/-- The byte at the current position. -/
def cur (lx : Lexer) : Nat := lx.byte lx.position

/-- Canonical fuel for all lexer and directive loops. -/
def fuel (lx : Lexer) : Nat := lx.input.length + 2

end Lexer

/-- `u8::is_ascii_whitespace`: space, `\t`, `\n`, form feed, `\r`. -/
def isWs (b : Nat) : Bool :=
  decide (b = 9) || decide (b = 10) || decide (b = 12) || decide (b = 13) || decide (b = 32)

/-- Membership in the delimiter byte set `[]<>(){}/%` used by the token
and name loops. -/
def isDelim (b : Nat) : Bool :=
  decide (b = 91) || decide (b = 93) || decide (b = 60) || decide (b = 62) ||
    decide (b = 40) || decide (b = 41) || decide (b = 123) || decide (b = 125) ||
    decide (b = 47) || decide (b = 37)

/-- `u8::is_ascii_hexdigit`. -/
def isHexDigit (b : Nat) : Bool :=
  (decide (48 ≤ b) && decide (b ≤ 57)) || (decide (65 ≤ b) && decide (b ≤ 70)) ||
    (decide (97 ≤ b) && decide (b ≤ 102))

/-- Value of an ASCII hex digit. -/
def hexVal (c : Nat) : Nat :=
  if c ≤ 57 then c - 48 else if c ≤ 70 then c - 55 else c - 87

/-- `CMapLexer::skip_whitespace` (lines 280-289). -/
def skipWsF : Nat → Lexer → Option Lexer
  | 0, _ => none
  | f + 1, lx =>
    if lx.position < lx.len then
      if isWs lx.cur then skipWsF f { lx with position := lx.position + 1 }
      else some lx
    else some lx

/-- The skip-to-end-of-line loop of the `%` comment branch of `get_obj`
(lines 233-239). -/
def skipCommentF : Nat → Lexer → Option Lexer
  | 0, _ => none
  | f + 1, lx =>
    if lx.position < lx.len then
      let ch := lx.cur
      let lx' : Lexer := { lx with position := lx.position + 1 }
      if ch = 10 || ch = 13 then some lx' else skipCommentF f lx'
    else some lx

/-- The digit-collecting loop of `parse_hex_string` (lines 302-312):
consume up to and including `>`, keeping hex digits. -/
def hexCharsF : Nat → Lexer → List Nat → Option (List Nat × Lexer)
  | 0, _, _ => none
  | f + 1, lx, acc =>
    if lx.position < lx.len then
      let ch := lx.cur
      if ch = 62 then some (acc, { lx with position := lx.position + 1 })
      else
        hexCharsF f { lx with position := lx.position + 1 }
          (if isHexDigit ch then acc ++ [ch] else acc)
    else some (acc, lx)

/-- The `chunks(2)` hex-pair packing of `parse_hex_string` (lines 315-326):
two digits make a byte, a trailing single digit is read as `digit * 16`. -/
def hexPairs : List Nat → List Nat
  | d1 :: d2 :: rest => (hexVal d1 * 16 + hexVal d2) :: hexPairs rest
  | [d] => [hexVal d * 16]
  | [] => []

/-- The body loop of `parse_ps_string` (lines 336-361), tracking paren
depth; a backslash keeps both itself and the following byte. -/
def psStringF : Nat → Lexer → List Nat → Nat → Option (List Nat × Lexer)
  | 0, _, _, _ => none
  | f + 1, lx, acc, depth =>
    if lx.position < lx.len && decide (0 < depth) then
      let ch := lx.cur
      if ch = 40 then
        psStringF f { lx with position := lx.position + 1 } (acc ++ [ch]) (depth + 1)
      else if ch = 41 then
        psStringF f { lx with position := lx.position + 1 }
          (if depth - 1 > 0 then acc ++ [ch] else acc) (depth - 1)
      else if ch = 92 then
        if lx.position + 1 < lx.len then
          psStringF f { lx with position := lx.position + 2 }
            (acc ++ [92, lx.byte (lx.position + 1)]) depth
        else
          psStringF f { lx with position := lx.position + 2 } acc depth
      else psStringF f { lx with position := lx.position + 1 } (acc ++ [ch]) depth
    else some (acc, lx)

/-- The character-collecting loop shared verbatim by `parse_name`
(lines 375-382) and `parse_token` (lines 390-397): stop at whitespace or
a delimiter. -/
def tokenCharsF : Nat → Lexer → List Nat → Option (List Nat × Lexer)
  | 0, _, _ => none
  | f + 1, lx, acc =>
    if lx.position < lx.len then
      let ch := lx.cur
      if isWs ch || isDelim ch then some (acc, lx)
      else tokenCharsF f { lx with position := lx.position + 1 } (acc ++ [ch])
    else some (acc, lx)

/-- `u8::is_ascii_digit`. -/
def isDigit (b : Nat) : Bool := decide (48 ≤ b) && decide (b ≤ 57)

/-- Decimal value of a digit string. -/
def digitsVal (l : List Nat) : Nat := l.foldl (fun a c => a * 10 + (c - 48)) 0

/-- `str::parse::<i32>`: optional sign, one or more ASCII digits, value
within the `i32` range. -/
def parseI32 (s : List Nat) : Option Int :=
  let signDigits : Int × List Nat :=
    match s with
    | 43 :: rest => (1, rest)
    | 45 :: rest => (-1, rest)
    | _ => (1, s)
  if signDigits.2.isEmpty || !signDigits.2.all isDigit then none
  else
    let v : Int := signDigits.1 * digitsVal signDigits.2
    if -(2 ^ 31) ≤ v ∧ v ≤ 2 ^ 31 - 1 then some v else none

/-- `CMapLexer::get_obj` (lines 221-278).  The only self-recursion is the
comment branch, which always advances, so `fuel = input.length + 2` is
sufficient (proved in the termination section). -/
def getObjF : Nat → Lexer → Option (Token × Lexer)
  | 0, _ => none
  | f + 1, lx0 =>
    match skipWsF lx0.fuel lx0 with
    | none => none
    | some lx =>
      if lx.position ≥ lx.len then some (Token.eof, lx)
      else
        let b := lx.cur
        if b = 37 then
          match skipCommentF lx.fuel lx with
          | none => none
          | some lx1 =>
            match skipWsF lx1.fuel lx1 with
            | none => none
            | some lx2 => getObjF f lx2
        else if lx.position + 2 ≤ lx.len && b = 62 && lx.byte (lx.position + 1) = 62 then
          some (Token.command (strCodes ">>"), { lx with position := lx.position + 2 })
        else if b = 60 then
          if lx.position + 2 ≤ lx.len && lx.byte (lx.position + 1) = 60 then
            some (Token.command (strCodes "<<"), { lx with position := lx.position + 2 })
          else
            match hexCharsF lx.fuel { lx with position := lx.position + 1 } [] with
            | none => none
            | some (chars, lx') => some (Token.hexString (hexPairs chars), lx')
        else if b = 40 then
          match psStringF lx.fuel { lx with position := lx.position + 1 } [] 1 with
          | none => none
          | some (acc, lx') => some (Token.str acc, lx')
        else if b = 91 then
          some (Token.command (strCodes "["), { lx with position := lx.position + 1 })
        else if b = 93 then
          some (Token.command (strCodes "]"), { lx with position := lx.position + 1 })
        else if b = 47 then
          match tokenCharsF lx.fuel { lx with position := lx.position + 1 } [] with
          | none => none
          | some (acc, lx') => some (Token.name acc, lx')
        else
          match tokenCharsF lx.fuel lx [] with
          | none => none
          | some (acc, lx') =>
            if acc.isEmpty then some (Token.eof, lx')
            else
              match parseI32 acc with
              | some i => some (Token.int i, lx')
              | none => some (Token.command acc, lx')

/-- Total wrapper for `get_obj`; the default is dead code because the fuel
is proved sufficient below. -/
def get_obj (lx : Lexer) : Token × Lexer :=
  (getObjF lx.fuel lx).getD (Token.eof, lx)

/-- `expect_string` (lines 178-192): a hex string's bytes become chars with
those code points; a PostScript string is returned as is. -/
def expect_string : Token → Option (List Nat)
  | Token.hexString bytes => some bytes
  | Token.str s => some s
  | _ => none

/-- `expect_int` (lines 194-199). -/
def expect_int : Token → Option Int
  | Token.int i => some i
  | _ => none

/-- `i32` cast to `u32` (two's-complement truncation). -/
def i32AsU32 (v : Int) : Nat := (v.emod (2 ^ 32)).toNat

/-- `i32` cast to `u8` (two's-complement truncation). -/
def i32AsU8 (v : Int) : Nat := (v.emod 256).toNat

/-- `char::from_u32` success test: not a surrogate, at most `0x10FFFF`. -/
def isValidCodePoint (n : Nat) : Bool :=
  decide (n < 0xD800) || (decide (0xE000 ≤ n) && decide (n ≤ 0x10FFFF))

/-! ## Directive interpreter (lines 411-639)

Each directive loop is fueled.  `PRes.oof` is fuel exhaustion, `PRes.perr`
is the `Option::None` failure path of the source, `PRes.pok` carries the
updated CMap and lexer. -/

/-- Result of a fueled fallible parser. -/
inductive PRes (α : Type) where
  | oof
  | perr
  | pok (a : α)
deriving DecidableEq, Repr

/-- `parse_bf_char` (lines 411-440).  A non-`endbfchar` command token falls
into the catch-all arm where `expect_string` fails, aborting the parse. -/
def parse_bf_charF : Nat → CMap → Lexer → PRes (CMap × Lexer)
  | 0, _, _ => .oof
  | f + 1, cmap, lexer =>
    let r := get_obj lexer
    match r.1 with
    | .eof => .pok (cmap, r.2)
    | .command cmd => if cmd = strCodes "endbfchar" then .pok (cmap, r.2) else .perr
    | tok =>
      match expect_string tok with
      | none => .perr
      | some src_str =>
        let src := str_to_int src_str
        let r2 := get_obj r.2
        match expect_string r2.1 with
        | none => .perr
        | some dst_str =>
          let cmap' :=
            if dst_str.length ≤ 2 then
              let code_point := str_to_int dst_str
              if isValidCodePoint code_point then cmap.map_one src code_point
              else cmap.map_one src (bf_string_char dst_str)
            else cmap.map_one src (bf_string_char dst_str)
          parse_bf_charF f cmap' r2.2

/-- The `[ ... ]` collection loop inside `parse_bf_range`
(lines 467-480): `]` or Eof stops, integers push their `u32` cast,
strings push their first character, everything else is skipped. -/
def bfArrayF : Nat → Lexer → List Nat → PRes (List Nat × Lexer)
  | 0, _, _ => .oof
  | f + 1, lx, arr =>
    let r := get_obj lx
    match r.1 with
    | .eof => .pok (arr, r.2)
    | .command cmd => if cmd = strCodes "]" then .pok (arr, r.2) else bfArrayF f r.2 arr
    | .int v => bfArrayF f r.2 (arr ++ [i32AsU32 v])
    | tok =>
      match expect_string tok with
      | some s => bfArrayF f r.2 (arr ++ [bf_string_char s])
      | none => bfArrayF f r.2 arr

/-- `parse_bf_range` (lines 442-495). -/
def parse_bf_rangeF : Nat → CMap → Lexer → PRes (CMap × Lexer)
  | 0, _, _ => .oof
  | f + 1, cmap, lexer =>
    let r := get_obj lexer
    match r.1 with
    | .eof => .pok (cmap, r.2)
    | .command cmd => if cmd = strCodes "endbfrange" then .pok (cmap, r.2) else .perr
    | tok =>
      match expect_string tok with
      | none => .perr
      | some low_str =>
        let low := str_to_int low_str
        let r2 := get_obj r.2
        match expect_string r2.1 with
        | none => .perr
        | some high_str =>
          let high := str_to_int high_str
          let r3 := get_obj r2.2
          match r3.1 with
          | .int dst_int =>
            match cmap.map_bf_range low high [i32AsU8 dst_int] with
            | none => .perr
            | some cmap' => parse_bf_rangeF f cmap' r3.2
          | tok2 =>
            match expect_string tok2 with
            | some dst_str =>
              match cmap.map_bf_range low high dst_str with
              | none => .perr
              | some cmap' => parse_bf_rangeF f cmap' r3.2
            | none =>
              match tok2 with
              | .command cmd =>
                if cmd = strCodes "[" then
                  match bfArrayF r3.2.fuel r3.2 [] with
                  | .oof => .oof
                  | .perr => .perr
                  | .pok (arr, lx4) =>
                    match cmap.map_bf_range_to_array low high arr with
                    | none => .perr
                    | some cmap' => parse_bf_rangeF f cmap' lx4
                else .perr
              | _ => .perr

/-- `parse_cid_char` (lines 497-514). -/
def parse_cid_charF : Nat → CMap → Lexer → PRes (CMap × Lexer)
  | 0, _, _ => .oof
  | f + 1, cmap, lexer =>
    let r := get_obj lexer
    match r.1 with
    | .eof => .pok (cmap, r.2)
    | .command cmd => if cmd = strCodes "endcidchar" then .pok (cmap, r.2) else .perr
    | tok =>
      match expect_string tok with
      | none => .perr
      | some src_str =>
        let src := str_to_int src_str
        let r2 := get_obj r.2
        match expect_int r2.1 with
        | none => .perr
        | some dst => parse_cid_charF f (cmap.map_one src (i32AsU32 dst)) r2.2

/-- `parse_cid_range` (lines 516-539). -/
def parse_cid_rangeF : Nat → CMap → Lexer → PRes (CMap × Lexer)
  | 0, _, _ => .oof
  | f + 1, cmap, lexer =>
    let r := get_obj lexer
    match r.1 with
    | .eof => .pok (cmap, r.2)
    | .command cmd => if cmd = strCodes "endcidrange" then .pok (cmap, r.2) else .perr
    | tok =>
      match expect_string tok with
      | none => .perr
      | some low_str =>
        let low := str_to_int low_str
        let r2 := get_obj r.2
        match expect_string r2.1 with
        | none => .perr
        | some high_str =>
          let high := str_to_int high_str
          let r3 := get_obj r2.2
          match expect_int r3.1 with
          | none => .perr
          | some dst_low =>
            match cmap.map_cid_range low high (i32AsU32 dst_low) with
            | none => .perr
            | some cmap' => parse_cid_rangeF f cmap' r3.2

/-- `parse_codespace_range` (lines 541-567): empty low strings are
skipped, an empty high string aborts the parse. -/
def parse_codespace_rangeF : Nat → CMap → Lexer → PRes (CMap × Lexer)
  | 0, _, _ => .oof
  | f + 1, cmap, lexer =>
    let r := get_obj lexer
    match r.1 with
    | .eof => .pok (cmap, r.2)
    | .command cmd => if cmd = strCodes "endcodespacerange" then .pok (cmap, r.2) else .perr
    | tok =>
      match expect_string tok with
      | none => .perr
      | some low_str =>
        if low_str.isEmpty then parse_codespace_rangeF f cmap r.2
        else
          let low := str_to_int low_str
          let r2 := get_obj r.2
          match expect_string r2.1 with
          | none => .perr
          | some high_str =>
            if high_str.isEmpty then .perr
            else
              let high := str_to_int high_str
              parse_codespace_rangeF f
                (cmap.add_codespace_range high_str.length low high) r2.2

/-- `parse_wmode` (lines 569-576): always succeeds. -/
def parse_wmode (cmap : CMap) (lexer : Lexer) : CMap × Lexer :=
  let r := get_obj lexer
  match expect_int r.1 with
  | some val => ({ cmap with vertical := decide (val ≠ 0) }, r.2)
  | none => (cmap, r.2)

/-- `parse_cmap_name` (lines 578-587): always succeeds, non-Name tokens
are ignored. -/
def parse_cmap_name (cmap : CMap) (lexer : Lexer) : CMap × Lexer :=
  let r := get_obj lexer
  match r.1 with
  | Token.name n => ({ cmap with name := n }, r.2)
  | _ => (cmap, r.2)

/-- The top-level loop of `parse_cmap` (lines 593-636). -/
def parse_cmapF : Nat → CMap → Lexer → PRes CMap
  | 0, _, _ => .oof
  | f + 1, cmap, lexer =>
    let r := get_obj lexer
    match r.1 with
    | .eof => .pok cmap
    | .name n =>
      if n = strCodes "WMode" then
        let s := parse_wmode cmap r.2
        parse_cmapF f s.1 s.2
      else if n = strCodes "CMapName" then
        let s := parse_cmap_name cmap r.2
        parse_cmapF f s.1 s.2
      else parse_cmapF f cmap r.2
    | .command cmd =>
      if cmd = strCodes "endcmap" then .pok cmap
      else if cmd = strCodes "begincodespacerange" then
        match parse_codespace_rangeF r.2.fuel cmap r.2 with
        | .oof => .oof
        | .perr => .perr
        | .pok s => parse_cmapF f s.1 s.2
      else if cmd = strCodes "beginbfchar" then
        match parse_bf_charF r.2.fuel cmap r.2 with
        | .oof => .oof
        | .perr => .perr
        | .pok s => parse_cmapF f s.1 s.2
      else if cmd = strCodes "begincidchar" then
        match parse_cid_charF r.2.fuel cmap r.2 with
        | .oof => .oof
        | .perr => .perr
        | .pok s => parse_cmapF f s.1 s.2
      else if cmd = strCodes "beginbfrange" then
        match parse_bf_rangeF r.2.fuel cmap r.2 with
        | .oof => .oof
        | .perr => .perr
        | .pok s => parse_cmapF f s.1 s.2
      else if cmd = strCodes "begincidrange" then
        match parse_cid_rangeF r.2.fuel cmap r.2 with
        | .oof => .oof
        | .perr => .perr
        | .pok s => parse_cmapF f s.1 s.2
      else parse_cmapF f cmap r.2
    | _ => parse_cmapF f cmap r.2

/-- `parse_cmap` (lines 589-639): run the directive loop on a fresh CMap;
any failure (and, conservatively, fuel exhaustion, which is proved
impossible) yields no CMap. -/
def parse_cmap (input : List Nat) : Option CMap :=
  match parse_cmapF (input.length + 2) CMap.new ⟨input, 0⟩ with
  | .pok c => some c
  | _ => none

-- sanity: the Rust unit tests of the textual parser, replayed on the model
example :
    (parse_cmap (strCodes "2 beginbfchar <03> <00> <04> <01> endbfchar")).map
      (fun c => (c.lookup_code 0x03, c.lookup_code 0x04, c.lookup_code 0x05)) =
      some (some 0, some 1, none) := by decide

example :
    (parse_cmap (strCodes "1 beginbfrange <06> <0B> 0 endbfrange")).map
      (fun c => (c.lookup_code 0x06, c.lookup_code 0x0b, c.lookup_code 0x0c)) =
      some (some 0, some 5, none) := by decide

example :
    (parse_cmap (strCodes "1 begincidrange <0016> <001B> 0 endcidrange")).map
      (fun c => (c.lookup_code 0x16, c.lookup_code 0x1b, c.lookup_code 0x1c)) =
      some (some 0, some 5, none) := by decide

example :
    (parse_cmap (strCodes "/CMapName /Identity-H def")).map (fun c => c.name) =
      some (strCodes "Identity-H") := by decide

example :
    (parse_cmap (strCodes "/WMode 1 def")).map (fun c => c.vertical) = some true := by decide

example :
    (parse_cmap (strCodes "1 beginbfrange <0D> <12> [ 0 1 2 3 4 5 ] endbfrange")).map
      (fun c => (c.lookup_code 0x0d, c.lookup_code 0x12, c.lookup_code 0x13)) =
      some (some 0, some 5, none) := by decide

example :
    (parse_cmap (strCodes "1 begincidchar <14> 0 endcidchar")).map
      (fun c => (c.lookup_code 0x14, c.lookup_code 0x15)) = some (some 0, none) := by decide

example :
    (parse_cmap (strCodes "1 begincodespacerange <8EA1A1A1> <8EA1FEFE> endcodespacerange")).map
      (fun c => read_code c [0x8E, 0xA1, 0xA1, 0xA1] 0) = some (0x8EA1A1A1, 4) := by decide

example :
    (parse_cmap (strCodes "/CIDInit /ProcSet findresource begin 12 dict begin begincmap /CIDSystemInfo << /Registry (Adobe) /Ordering (Identity) /Supplement 0 >> def /CMapName /Identity-H def /CMapType 2 def 1 begincidrange <00> <FF> 0 endcidrange endcmap CMapName currentdict /CMap defineresource pop end end")).map
      (fun c => (c.lookup_code 0x41, c.lookup_code 0x100, c.name)) =
      some (some 65, none, strCodes "Identity-H") := by decide

/-! ## Binary CMap stream (struct BinaryCMapStream, lines 679-810) and the
type 2 (cidchar) record of BinaryCMapReader::process (lines 903-917) -/

/-- `struct BinaryCMapStream` without the scratch buffer (which is
threaded explicitly where used). -/
structure BStream where
  buffer : List Nat
  pos : Nat
  endPos : Nat
deriving DecidableEq, Repr

/-- `BinaryCMapStream::read_byte` (lines 697-704): `-1` at end of
stream. -/
def read_byte (s : BStream) : Int × BStream :=
  if s.pos ≥ s.endPos then (-1, s)
  else (Int.ofNat (s.buffer.getD s.pos 0 % 256), { s with pos := s.pos + 1 })

/-- The accumulation loop of `read_number` (lines 707-719): 7-bit
big-endian groups, continuation bit `0x80`, wrapping `u32` shift. -/
def readNumberF : Nat → Nat → BStream → PRes (Nat × BStream)
  | 0, _, _ => .oof
  | f + 1, n, s =>
    let r := read_byte s
    if r.1 < 0 then .perr
    else
      let bn := r.1.toNat
      let n' := ((n <<< 7) % U32MOD) ||| (bn &&& 0x7F)
      if bn &&& 0x80 = 0 then .pok (n', r.2) else readNumberF f n' r.2

/-- `BinaryCMapStream::read_number` (lines 706-721). -/
def read_number (s : BStream) : PRes (Nat × BStream) :=
  readNumberF (s.endPos + 2) 0 s

/-- `BinaryCMapStream::read_signed` (lines 723-730): odd is
`!((n >> 1) as i32)`, i.e. `-(n >> 1) - 1`; even is `n >> 1`. -/
def read_signed (s : BStream) : PRes (Int × BStream) :=
  match read_number s with
  | .oof => .oof
  | .perr => .perr
  | .pok (n, s') =>
    .pok (if n % 2 = 1 then -(Int.ofNat (n >>> 1)) - 1 else Int.ofNat (n >>> 1), s')

/-- `hex_to_int` (lines 641-649): big-endian pack of `a[0..=size]` in
wrapping `u32`. -/
def hex_to_int (a : List Nat) (size : Nat) : Nat :=
  (List.range (size + 1)).foldl
    (fun n i => if i < a.length then ((n <<< 8) % U32MOD) ||| (a.getD i 0 % 256) else n) 0

/-- The descending-index loop of `inc_hex` (lines 668-677); the counter is
the current index plus one. -/
def incHexLoop : List Nat → Nat → Nat → List Nat
  | a, _, 0 => a
  | a, c, i + 1 =>
    if i < a.length ∧ 0 < c then
      incHexLoop (a.set i ((c + a.getD i 0) % 256)) ((c + a.getD i 0) / 256) i
    else incHexLoop a c i

/-- `inc_hex` (lines 668-677). -/
def inc_hex (a : List Nat) (size : Nat) : List Nat := incHexLoop a 1 (size + 1)

/-- The descending-index loop of `add_hex` (lines 657-666). -/
def addHexLoop : List Nat → List Nat → Nat → Nat → List Nat
  | a, _, _, 0 => a
  | a, b, c, i + 1 =>
    if i < a.length ∧ i < b.length then
      addHexLoop (a.set i ((c + a.getD i 0 % 256 + b.getD i 0 % 256) % 256)) b
        ((c + a.getD i 0 % 256 + b.getD i 0 % 256) / 256) i
    else addHexLoop a b c i

/-- `add_hex` (lines 657-666): `a += b` big-endian with carry. -/
def add_hex (a b : List Nat) (size : Nat) : List Nat := addHexLoop a b 0 (size + 1)

/-- `BinaryCMapStream::read_hex` (lines 732-740): copy `size + 1` raw
bytes into the front of `num`. -/
def read_hex (num : List Nat) (size : Nat) (s : BStream) : PRes (List Nat × BStream) :=
  if s.pos + size + 1 > s.endPos then .perr
  else
    let len := min (size + 1) num.length
    .pok ((List.range num.length).map
        (fun i => if i < len then s.buffer.getD (s.pos + i) 0 % 256 else num.getD i 0),
      { s with pos := s.pos + size + 1 })

/-- The byte-collecting loop of `read_hex_number` (lines 747-760): push
the low 7 bits onto the temp stack (capacity 16, top at the head) until
the continuation bit is clear. -/
def rhnReadF : Nat → BStream → List Nat → Nat → PRes (List Nat × BStream)
  | 0, _, _, _ => .oof
  | f + 1, s, tmp, sp =>
    let r := read_byte s
    if r.1 < 0 then .perr
    else
      let bn := r.1.toNat
      let push : List Nat × Nat := if sp < 16 then ((bn &&& 0x7F) :: tmp, sp + 1) else (tmp, sp)
      if bn &&& 0x80 = 0 then .pok (push.1, r.2) else rhnReadF f r.2 push.1 push.2

/-- The refill loop of `read_hex_number` (lines 767-771): pop 7-bit groups
off the temp stack into the bit buffer until it holds at least 8 bits. -/
def rhnFill : List Nat → Nat → Nat → List Nat × Nat × Nat
  | [], buf, bsize => ([], buf, bsize)
  | v :: tmp', buf, bsize =>
    if bsize < 8 then rhnFill tmp' (buf ||| (v <<< bsize)) (bsize + 7)
    else (v :: tmp', buf, bsize)

/-- The emitting loop of `read_hex_number` (lines 766-778): write bytes
from index `size` down to `0`; the counter is the current index plus
one. -/
def rhnPack : List Nat → Nat → Nat → List Nat → Nat → List Nat
  | _, _, _, num, 0 => num
  | tmp, buf, bsize, num, i + 1 =>
    let t := rhnFill tmp buf bsize
    rhnPack t.1 (t.2.1 / 256) (t.2.2 - 8)
      (if i < num.length then num.set i (t.2.1 % 256) else num) i

/-- `BinaryCMapStream::read_hex_number` (lines 742-780). -/
def read_hex_number (num : List Nat) (size : Nat) (s : BStream) : PRes (List Nat × BStream) :=
  match rhnReadF (s.endPos + 2) s [] 0 with
  | .oof => .oof
  | .perr => .perr
  | .pok (tmp, s') => .pok (rhnPack tmp 0 0 num (size + 1), s')

/-- The `code` update of the binary type 2 record (line 915):
`((code as i64) + (delta as i64) + 1) as u32`.  The `i64` sum is exact
(`code < 2^32`, `|delta| ≤ 2^31`), and the `u32` cast truncates, i.e.
takes the nonnegative residue modulo `2^32`. -/
def cidCharCode (code : Nat) (delta : Int) : Nat :=
  ((Int.ofNat code + delta + 1).emod (2 ^ 32)).toNat

/-- The `for _i in 1..subitems_count` loop of the type 2 (cidchar) record
(lines 908-917), iterated `k` times with the running `char` buffer, the
scratch `tmp`, and the running `code`. -/
def cidCharItems : Nat → BStream → CMap → List Nat → List Nat → Nat → Bool → Nat →
    PRes (CMap × BStream)
  | 0, s, cmap, _, _, _, _, _ => .pok (cmap, s)
  | k + 1, s, cmap, char, tmp, dataSize, seq, code =>
    let char1 := inc_hex char dataSize
    if seq then
      match read_signed s with
      | .oof => .oof
      | .perr => .perr
      | .pok (delta, s1) =>
        let code' := cidCharCode code delta
        cidCharItems k s1 (cmap.map_one (hex_to_int char1 dataSize) code') char1 tmp
          dataSize seq code'
    else
      match read_hex_number tmp dataSize s with
      | .oof => .oof
      | .perr => .perr
      | .pok (tmp', s1) =>
        let char2 := add_hex char1 tmp' dataSize
        match read_signed s1 with
        | .oof => .oof
        | .perr => .perr
        | .pok (delta, s2) =>
          let code' := cidCharCode code delta
          cidCharItems k s2 (cmap.map_one (hex_to_int char2 dataSize) code') char2 tmp'
            dataSize seq code'

/-- The whole type 2 (cidchar) record handler (lines 903-917): first item
read with `read_hex` and `read_number`, remaining items via
`cidCharItems`. -/
def processType2 (s : BStream) (cmap : CMap) (dataSize : Nat) (seq : Bool)
    (subitems : Nat) (char tmp : List Nat) : PRes (CMap × BStream) :=
  match read_hex char dataSize s with
  | .oof => .oof
  | .perr => .perr
  | .pok (char1, s1) =>
    match read_number s1 with
    | .oof => .oof
    | .perr => .perr
    | .pok (code, s2) =>
      cidCharItems (subitems - 1) s2 (cmap.map_one (hex_to_int char1 dataSize) code) char1
        tmp dataSize seq code

-- sanity: varint decoding matches the Rust unit tests
example : read_number ⟨[0x01], 0, 1⟩ = .pok (1, ⟨[0x01], 1, 1⟩) := by decide
example : read_number ⟨[0x81, 0x01], 0, 2⟩ = .pok (129, ⟨[0x81, 0x01], 2, 2⟩) := by decide
example : read_signed ⟨[0x05], 0, 1⟩ = .pok (-3, ⟨[0x05], 1, 1⟩) := by decide
example : read_signed ⟨[0x04], 0, 1⟩ = .pok (2, ⟨[0x04], 1, 1⟩) := by decide

/-! ## Specification-side definitions used to state the claims -/

/-- The big-endian `n`-byte encoding of a value `v < 256^n` (the
specification's `encode_be`). -/
def encodeBE (v : Nat) : Nat → List Nat
  | 0 => []
  | n + 1 => encodeBE (v / 256) n ++ [v % 256]

/-- The big-endian accumulator of `read_code` after consuming `n` bytes
starting at `offset` (matching the update `c = (c << 8) | byte` of the
loop). -/
def beAccum (bytes : List Nat) (offset : Nat) : Nat → Nat
  | 0 => 0
  | n + 1 => ((beAccum bytes offset n <<< 8) % U32MOD) ||| (bytes.getD (offset + n) 0 % 256)

/-- Big-endian increment on a reversed byte list: a `0xFF` byte rolls to
`0x00` and carries left (helper for `specBfIncrement`). -/
def incBErev : List Nat → List Nat
  | [] => []
  | b :: rest => if b = 0xFF then 0x00 :: incBErev rest else (b + 1) :: rest

/-- The destination-string increment as the specification words it: a
big-endian arbitrary-precision increment with carry from the rightmost
byte, except that a length-1 string holding `0xFF` stays put.  Defined
from the spec only to compare against the source's `bfStep`. -/
def specBfIncrement (bytes : List Nat) : List Nat :=
  if bytes = [0xFF] then bytes else (incBErev bytes.reverse).reverse

/-! ## Helper lemmas -/

theorem mapGet_mapInsert (m : List (Nat × Nat)) (k v x : Nat) :
    CMap.mapGet (CMap.mapInsert m k v) x = if x = k then some v else CMap.mapGet m x := by
  simp only [CMap.mapGet, CMap.mapInsert, List.find?]
  by_cases h : k = x
  · subst h
    simp
  · have : (decide (k = x)) = false := by simpa using h
    simp [this, Ne.symm h]

theorem mapGet_nil (x : Nat) : CMap.mapGet [] x = none := rfl

theorem encodeBE_length (v n : Nat) : (encodeBE v n).length = n := by
  induction n generalizing v with
  | zero => rfl
  | succ n ih => simp [encodeBE, ih]

theorem encodeBE_getD (v n i : Nat) (h : i < n) :
    (encodeBE v n).getD i 0 = v / 256 ^ (n - 1 - i) % 256 := by
  induction n generalizing v i with
  | zero => omega
  | succ n ih =>
    rcases Nat.lt_or_ge i n with hi | hi
    · have hlen : i < (encodeBE (v / 256) n).length := by simpa [encodeBE_length] using hi
      have heq : (encodeBE v (n + 1)).getD i 0 = (encodeBE (v / 256) n).getD i 0 := by
        simp only [encodeBE, List.getD_eq_getElem?_getD]
        rw [List.getElem?_append_left hlen]
      rw [heq, ih _ _ hi, Nat.div_div_eq_div_mul]
      have hexp : n + 1 - 1 - i = (n - 1 - i) + 1 := by omega
      rw [hexp, Nat.pow_succ, Nat.mul_comm]
    · have hi' : i = n := by omega
      subst hi'
      have hlen : (encodeBE (v / 256) i).length = i := encodeBE_length _ _
      have heq : (encodeBE v (i + 1)).getD i 0 = v % 256 := by
        simp only [encodeBE, List.getD_eq_getElem?_getD]
        rw [List.getElem?_append_right (by omega)]
        simp [hlen]
      rw [heq]
      simp

theorem lor_byte_eq_add (a b : Nat) (hb : b < 256) : (a * 256) ||| b = a * 256 + b := by
  have h256 : (256 : Nat) = 2 ^ 8 := by norm_num
  have hb' : b < 2 ^ 8 := by simpa [← h256] using hb
  rw [Nat.mul_comm a 256, h256]
  exact (Nat.mul_add_lt_is_or hb' a).symm

theorem accum_step (c b : Nat) (hc : c < 2 ^ 24) (hb : b < 256) :
    ((c <<< 8) % U32MOD) ||| b = c * 256 + b := by
  have h1 : c <<< 8 = c * 256 := by rw [Nat.shiftLeft_eq]
  have h2 : c * 256 < U32MOD := by
    calc c * 256 < 2 ^ 24 * 256 :=
      (Nat.mul_lt_mul_right (show 0 < 256 by norm_num)).mpr hc
    _ = U32MOD := by norm_num [U32MOD]
  rw [h1, Nat.mod_eq_of_lt h2, lor_byte_eq_add _ _ hb]

theorem encodeBE_accum_step (v n j : Nat) (hv : v < 256 ^ n) (hj : j < n) (hn : n ≤ 4) :
    ((v / 256 ^ (n - j)) <<< 8) % U32MOD ||| ((encodeBE v n).getD j 0 % 256) =
      v / 256 ^ (n - (j + 1)) := by
  have hc : v / 256 ^ (n - j) < 2 ^ 24 := by
    have hlt : v / 256 ^ (n - j) < 256 ^ j := by
      rw [Nat.div_lt_iff_lt_mul (Nat.pos_pow_of_pos _ (by norm_num))]
      calc v < 256 ^ n := hv
      _ = 256 ^ j * 256 ^ (n - j) := by rw [← Nat.pow_add]; congr 1; omega
    calc v / 256 ^ (n - j) < 256 ^ j := hlt
    _ ≤ 256 ^ 3 := Nat.pow_le_pow_right (by norm_num) (by omega)
    _ ≤ 2 ^ 24 := by norm_num
  have hb : (encodeBE v n).getD j 0 % 256 < 256 := Nat.mod_lt _ (by norm_num)
  rw [accum_step _ _ hc hb, encodeBE_getD v n j hj]
  have hd : 256 ^ (n - j) = 256 * 256 ^ (n - (j + 1)) := by
    rw [← Nat.pow_succ']
    congr 1
    omega
  have he : n - 1 - j = n - (j + 1) := by omega
  have hsw : v / (256 * 256 ^ (n - (j + 1))) = v / 256 ^ (n - (j + 1)) / 256 := by
    rw [Nat.mul_comm, ← Nat.div_div_eq_div_mul]
  rw [hd, he, hsw]
  omega

theorem mapGet_cidRangeLoop (k : Nat) :
    ∀ (m : List (Nat × Nat)) (low dst x : Nat), low + k ≤ U32MOD → dst < U32MOD →
    CMap.mapGet (CMap.cidRangeLoop m low dst k) x =
      if low ≤ x ∧ x < low + k then some ((dst + (x - low)) % U32MOD)
      else CMap.mapGet m x := by
  induction k with
  | zero =>
    intro m low dst x _ _
    rw [show CMap.cidRangeLoop m low dst 0 = m from rfl,
      if_neg (by omega : ¬(low ≤ x ∧ x < low + 0))]
  | succ k ih =>
    intro m low dst x hlk hd
    have hM : 0 < U32MOD := by norm_num [U32MOD]
    show CMap.mapGet
      (CMap.cidRangeLoop (CMap.mapInsert m low dst) ((low + 1) % U32MOD)
        ((dst + 1) % U32MOD) k) x = _
    rcases Nat.lt_or_ge (low + 1) U32MOD with hlow | hlow
    · rw [Nat.mod_eq_of_lt hlow, ih _ _ _ _ (by omega) (Nat.mod_lt _ hM)]
      by_cases hx : low ≤ x ∧ x < low + (k + 1)
      · by_cases hx1 : low + 1 ≤ x
        · have cond1 : (low + 1) ≤ x ∧ x < (low + 1) + k := by omega
          rw [if_pos cond1, if_pos hx]
          congr 1
          rw [Nat.mod_add_mod]
          congr 1
          omega
        · have hxl : x = low := by omega
          have cond1 : ¬((low + 1) ≤ x ∧ x < (low + 1) + k) := by omega
          rw [if_neg cond1, mapGet_mapInsert, if_pos hxl, if_pos hx, hxl]
          rw [Nat.sub_self, Nat.add_zero, Nat.mod_eq_of_lt hd]
      · have cond1 : ¬((low + 1) ≤ x ∧ x < (low + 1) + k) := by omega
        rw [if_neg cond1, if_neg hx, mapGet_mapInsert, if_neg (by omega : ¬x = low)]
    · have hk0 : k = 0 := by omega
      subst hk0
      show CMap.mapGet (CMap.mapInsert m low dst) x = _
      rw [mapGet_mapInsert]
      by_cases hx : x = low
      · rw [if_pos hx, if_pos (by omega), hx, Nat.sub_self, Nat.add_zero,
          Nat.mod_eq_of_lt hd]
      · rw [if_neg hx, if_neg (by omega)]

theorem readCodeLoop_no_match (cm : CMap) (bytes : List Nat) (offset : Nat) (k : Nat) :
    ∀ (n c : Nat), c = beAccum bytes offset n →
    (∀ m, n ≤ m → m < n + k → offset + m < bytes.length →
      scanRanges (cm.rangesAt m) (beAccum bytes offset (m + 1)) = false) →
    readCodeLoop cm bytes offset c n k = (0, 1) := by
  induction k with
  | zero => intro n c _ _; rfl
  | succ k ih =>
    intro n c hc hm
    by_cases hb : offset + n ≥ bytes.length
    · simp only [readCodeLoop, if_pos hb]
    · have hscan : scanRanges (cm.rangesAt n)
          (((c <<< 8) % U32MOD) ||| (bytes.getD (offset + n) 0 % 256)) = false := by
        rw [hc]
        exact hm n (Nat.le_refl _) (by omega) (by omega)
      simp only [readCodeLoop, if_neg hb, hscan, Bool.false_eq_true, if_false]
      exact ih (n + 1) _ (by rw [hc]; rfl)
        (fun m h1 h2 h3 => hm m (by omega) (by omega) h3)

theorem scanRanges_of_hasPair : ∀ (l : List Nat) (low high c : Nat),
    hasPair l low high = true → low ≤ c → c ≤ high → scanRanges l c = true
  | [], _, _, _, h, _, _ => by simp [hasPair] at h
  | [_], _, _, _, h, _, _ => by simp [hasPair] at h
  | a :: b :: rest, low, high, c, h, h1, h2 => by
    simp only [hasPair, Bool.or_eq_true, Bool.and_eq_true, decide_eq_true_eq] at h
    simp only [scanRanges, Bool.or_eq_true, Bool.and_eq_true, decide_eq_true_eq]
    rcases h with ⟨rfl, rfl⟩ | h
    · exact Or.inl ⟨h1, h2⟩
    · exact Or.inr (scanRanges_of_hasPair rest low high c h h1 h2)

/-! ## The claims -/

/-- C1: a CMap named "Identity-H" or "Identity-V" with an empty map looks
codes up as the identity on `0..=0xFFFF` and returns nothing above; in
particular `identity_h` does; a non-empty map suppresses the identity
fallback even when the name matches, so the lookup consults only the
map. -/
theorem c1_identity_cmap_lookup (c : CMap) (code : Nat) :
    ((c.name = strCodes "Identity-H" ∨ c.name = strCodes "Identity-V") → c.map = [] →
      c.lookup_code code = if code ≤ 0xFFFF then some code else none)
    ∧ (CMap.identity_h.lookup_code code = if code ≤ 0xFFFF then some code else none)
    ∧ (c.map ≠ [] → c.lookup_code code = CMap.mapGet c.map code) := by
  refine ⟨?_, ?_, ?_⟩
  · intro hn hm
    have hident : c.is_identity_cmap = true := by
      simp only [CMap.is_identity_cmap, hm, List.isEmpty_nil, Bool.and_true,
        Bool.or_eq_true, decide_eq_true_eq]
      exact hn
    simp [CMap.lookup_code, hm, mapGet_nil, hident]
  · have hident : CMap.identity_h.is_identity_cmap = true := by decide
    have hm : CMap.identity_h.map = [] := rfl
    simp [CMap.lookup_code, hm, mapGet_nil, hident]
  · intro hm
    have hident : c.is_identity_cmap = false := by
      have : c.map.isEmpty = false := by
        cases hmap : c.map with
        | nil => exact absurd hmap hm
        | cons a t => simp
      simp [CMap.is_identity_cmap, this]
    cases hg : CMap.mapGet c.map code with
    | none => simp [CMap.lookup_code, hg, hident]
    | some v => simp [CMap.lookup_code, hg]

/-- Witness for C1 at concrete inputs: an empty-map Identity-V CMap maps
`0x1234` to itself, and a CMap with a non-empty map answers from the map
alone. -/
theorem c1_identity_cmap_lookup_witness :
    ({ CMap.new with name := strCodes "Identity-V" } : CMap).lookup_code 0x1234 =
        some 0x1234
    ∧ (CMap.new.map_one 3 7).lookup_code 5 = CMap.mapGet (CMap.new.map_one 3 7).map 5 := by
  constructor
  · have h := (c1_identity_cmap_lookup { CMap.new with name := strCodes "Identity-V" }
      0x1234).1 (Or.inr rfl) rfl
    simpa using h
  · exact (c1_identity_cmap_lookup (CMap.new.map_one 3 7) 5).2.2 (by decide)

/-- C2: for a CMap built by the single directive `begincidrange <L> <H> D
endcidrange` (equivalently `map_cid_range` on a fresh CMap) with `L ≤ H`
and `H - L ≤ 0xFFFFFF`, lookup returns `D + (x - L)` (as a `u32`, i.e.
modulo `2^32`) exactly on `L ≤ x ≤ H` and nothing outside.  `H` is kept
below `u32::MAX` because at `H = u32::MAX` the source loop
`while current_low <= high` never terminates. -/
theorem c2_cid_range_lookup (low high dst x : Nat)
    (hlh : low ≤ high) (hr : high - low ≤ 0xFFFFFF) (hhi : high + 1 < U32MOD)
    (hd : dst < U32MOD) :
    ∃ c : CMap, CMap.new.map_cid_range low high dst = some c ∧
      (low ≤ x → x ≤ high → c.lookup_code x = some ((dst + (x - low)) % U32MOD)) ∧
      (¬(low ≤ x ∧ x ≤ high) → c.lookup_code x = none) := by
  have hguard : ¬(u32sub high low > MAX_MAP_RANGE) := by
    have : u32sub high low = high - low := by
      simp only [u32sub, U32MOD]
      omega
    rw [this]
    simp only [MAX_MAP_RANGE]
    omega
  refine ⟨_, by rw [CMap.map_cid_range, if_neg hguard], ?_, ?_⟩
  · intro h1 h2
    have hget := mapGet_cidRangeLoop (high + 1 - low) CMap.new.map low dst x
      (by omega) hd
    rw [if_pos (by omega : low ≤ x ∧ x < low + (high + 1 - low))] at hget
    simp only [CMap.lookup_code, hget]
  · intro hx
    have hget := mapGet_cidRangeLoop (high + 1 - low) CMap.new.map low dst x
      (by omega) hd
    rw [if_neg (by omega : ¬(low ≤ x ∧ x < low + (high + 1 - low)))] at hget
    simp only [CMap.lookup_code, hget, mapGet_nil]
    rfl

/-- Witness for C2: the spec's own example, `begincidrange <0016> <001B> 0`,
maps `0x18` to `2` and misses `0x30`. -/
theorem c2_cid_range_lookup_witness :
    ∃ c : CMap, CMap.new.map_cid_range 0x16 0x1B 0 = some c ∧
      c.lookup_code 0x18 = some 2 ∧ c.lookup_code 0x30 = none := by
  obtain ⟨c, hc, hin, hout⟩ :=
    c2_cid_range_lookup 0x16 0x1B 0 0x18 (by norm_num) (by norm_num)
      (by norm_num [U32MOD]) (by norm_num [U32MOD])
  obtain ⟨c', hc', _, hout'⟩ :=
    c2_cid_range_lookup 0x16 0x1B 0 0x30 (by norm_num) (by norm_num)
      (by norm_num [U32MOD]) (by norm_num [U32MOD])
  refine ⟨c, hc, ?_, ?_⟩
  · have := hin (by norm_num) (by norm_num)
    rw [this]
    norm_num [U32MOD]
  · have hcc : c' = c := by rw [hc] at hc'; exact (Option.some_inj.mp hc').symm
    rw [← hcc]
    exact hout' (by norm_num)

/-- C3: `read_code` is total: whenever `offset ≥ buffer.len()` it returns
`(0, 1)` (in release mode the wrapping bound computation makes the first
bounds check break the loop), and whenever no codespace range matches any
accumulated prefix within the available bytes and length 4 it returns
`(0, 1)`. -/
theorem c3_read_code_total (cm : CMap) (bytes : List Nat) (offset : Nat)
    (_hoff : offset < U64MOD) (_hlen : bytes.length < U64MOD) :
    (offset ≥ bytes.length → read_code cm bytes offset = (0, 1))
    ∧ ((∀ n, n < min 4 (bytes.length - offset) →
          scanRanges (cm.rangesAt n) (beAccum bytes offset (n + 1)) = false) →
        read_code cm bytes offset = (0, 1)) := by
  constructor
  · intro hge
    rw [read_code]
    cases hk : min 4 (usizeSub bytes.length offset) with
    | zero => rfl
    | succ k => simp only [readCodeLoop, Nat.add_zero, if_pos hge]
  · intro hno
    rw [read_code]
    apply readCodeLoop_no_match cm bytes offset _ 0 0 rfl
    intro m _ hmk hmb
    apply hno
    have h4 : m < 4 := by
      have : min 4 (usizeSub bytes.length offset) ≤ 4 := Nat.min_le_left _ _
      omega
    omega

/-- Witness for C3: past-the-end offsets and a rangeless CMap both give
the `(0, 1)` sentinel. -/
theorem c3_read_code_total_witness :
    read_code CMap.identity_h [] 5 = (0, 1)
    ∧ read_code CMap.new [0x12, 0x34] 0 = (0, 1) := by
  constructor
  · exact (c3_read_code_total CMap.identity_h [] 5 (by norm_num [U64MOD])
      (by norm_num [U64MOD])).1 (by norm_num)
  · exact (c3_read_code_total CMap.new [0x12, 0x34] 0 (by norm_num [U64MOD])
      (by norm_num [U64MOD])).2 (by decide)

theorem readCodeLoop_succ_eq (cm : CMap) (bytes : List Nat) (offset c n k : Nat) :
    readCodeLoop cm bytes offset c n (k + 1) =
      if offset + n ≥ bytes.length then (0, 1)
      else if scanRanges (cm.rangesAt n)
          (((c <<< 8) % U32MOD) ||| (bytes.getD (offset + n) 0 % 256)) then
        ((((c <<< 8) % U32MOD) ||| (bytes.getD (offset + n) 0 % 256)), n + 1)
      else readCodeLoop cm bytes offset
        (((c <<< 8) % U32MOD) ||| (bytes.getD (offset + n) 0 % 256)) (n + 1) k := rfl

theorem readCodeLoop_hits (cm : CMap) (v n low high : Nat)
    (hn4 : n ≤ 4) (hv : v < 256 ^ n)
    (hp : hasPair (cm.rangesAt (n - 1)) low high = true) (hl : low ≤ v) (hh : v ≤ high)
    (hshort : ∀ m, m + 1 < n → scanRanges (cm.rangesAt m) (v / 256 ^ (n - m - 1)) = false) :
    ∀ k j, j + (k + 1) = n →
      readCodeLoop cm (encodeBE v n) 0 (v / 256 ^ (n - j)) j (k + 1) = (v, n) := by
  intro k
  induction k with
  | zero =>
    intro j hj
    have hnb : ¬(0 + j ≥ (encodeBE v n).length) := by rw [encodeBE_length]; omega
    rw [readCodeLoop_succ_eq, if_neg hnb]
    simp only [Nat.zero_add]
    rw [encodeBE_accum_step v n j hv (by omega) hn4]
    have hz : n - (j + 1) = 0 := by omega
    rw [hz, pow_zero, Nat.div_one]
    have hscan : scanRanges (cm.rangesAt j) v = true := by
      rw [show j = n - 1 by omega]
      exact scanRanges_of_hasPair _ _ _ _ hp hl hh
    simp only [hscan, if_true, Prod.mk.injEq]
    exact ⟨by trivial, by omega⟩
  | succ k ih =>
    intro j hj
    have hnb : ¬(0 + j ≥ (encodeBE v n).length) := by rw [encodeBE_length]; omega
    rw [readCodeLoop_succ_eq, if_neg hnb]
    simp only [Nat.zero_add]
    rw [encodeBE_accum_step v n j hv (by omega) hn4]
    have hscan : scanRanges (cm.rangesAt j) (v / 256 ^ (n - (j + 1))) = false := by
      have h := hshort j (by omega)
      rw [show n - j - 1 = n - (j + 1) by omega] at h
      exact h
    simp only [hscan, Bool.false_eq_true, if_false]
    exact ih (j + 1) (by omega)

/-- C4 counterexample: in the CMap parsed from
`begincodespacerange <00> <FF> <0000> <FFFF> endcodespacerange`, the pair
`(0, 0xFFFF)` is stored at byte-length 2, yet reading the 2-byte encoding
of its low bound returns `(0, 1)` (the length-1 range `<00> <FF>` matches
the 1-byte prefix first), not `(0, 2)` as the claim requires. -/
theorem c4_counterexample :
    (parse_cmap (strCodes "begincodespacerange <00> <FF> <0000> <FFFF> endcodespacerange")).map
        (fun c => (hasPair (c.rangesAt 1) 0 0xFFFF, read_code c (encodeBE 0 2) 0)) =
      some (true, (0, 1))
    ∧ ((0 : Nat), (1 : Nat)) ≠ (0, 2) := by
  constructor
  · decide
  · decide

/-- C4 amended: the scan goes by length 1→4 and the first match wins, so
the round trip `read_code (encode_be v n) = (v, n)` holds for a value `v`
of a stored pair `(low, high)` at length `n` only under the proviso that
no range at a shorter length contains the corresponding prefix of `v`;
with that proviso it holds for every `v` in the pair, in particular for
`low` and `high`. -/
theorem c4_read_code_roundtrip (cm : CMap) (n low high v : Nat)
    (hn1 : 1 ≤ n) (hn4 : n ≤ 4)
    (hp : hasPair (cm.rangesAt (n - 1)) low high = true)
    (hv : v < 256 ^ n) (hl : low ≤ v) (hh : v ≤ high)
    (hshort : ∀ m, m + 1 < n → scanRanges (cm.rangesAt m) (v / 256 ^ (n - m - 1)) = false) :
    read_code cm (encodeBE v n) 0 = (v, n) := by
  have hlen : (encodeBE v n).length = n := encodeBE_length v n
  have hsub : usizeSub (encodeBE v n).length 0 = n := by
    rw [hlen]
    simp only [usizeSub, U64MOD]
    omega
  have hmin : min 4 (usizeSub (encodeBE v n).length 0) = n := by rw [hsub]; omega
  rw [read_code, hmin]
  obtain ⟨k, hk⟩ : ∃ k, k + 1 = n := ⟨n - 1, by omega⟩
  have h := readCodeLoop_hits cm v n low high hn4 hv hp hl hh hshort k 0 (by omega)
  rw [Nat.sub_zero, Nat.div_eq_of_lt hv, hk] at h
  exact h

/-- Witness for the amended C4: on `identity_h` (single pair `(0, 0xFFFF)`
at length 2), reading the encodings of `0x1234`, of the low bound and of
the high bound returns them at length 2. -/
theorem c4_read_code_roundtrip_witness :
    read_code CMap.identity_h (encodeBE 0x1234 2) 0 = (0x1234, 2)
    ∧ read_code CMap.identity_h (encodeBE 0 2) 0 = (0, 2)
    ∧ read_code CMap.identity_h (encodeBE 0xFFFF 2) 0 = (0xFFFF, 2) := by
  refine ⟨?_, ?_, ?_⟩
  · exact c4_read_code_roundtrip CMap.identity_h 2 0 0xFFFF 0x1234 (by norm_num)
      (by norm_num) (by decide) (by norm_num) (by norm_num) (by norm_num)
      (by intro m hm; have hm0 : m = 0 := by omega
          subst hm0; decide)
  · exact c4_read_code_roundtrip CMap.identity_h 2 0 0xFFFF 0 (by norm_num)
      (by norm_num) (by decide) (by norm_num) (by norm_num) (by norm_num)
      (by intro m hm; have hm0 : m = 0 := by omega
          subst hm0; decide)
  · exact c4_read_code_roundtrip CMap.identity_h 2 0 0xFFFF 0xFFFF (by norm_num)
      (by norm_num) (by decide) (by norm_num) (by norm_num) (by norm_num)
      (by intro m hm; have hm0 : m = 0 := by omega
          subst hm0; decide)

/-- C5: a range directive with `high - low > 0xFFFFFF` fails the
directive (`map_cid_range`, `map_bf_range` and `map_bf_range_to_array`
all return nothing), the failure propagates through the top-level loop
(`parse_cmapF` answers the failure of `parse_cid_rangeF` on a
`begincidrange` token with failure), and on whole inputs containing such
a directive — for `begincidrange`, `beginbfrange` with a string
destination, and `beginbfrange` with an array destination — the whole
parse returns nothing even when other directives succeeded before. -/
theorem c5_oversized_range_aborts :
    (∀ (c : CMap) (low high dst : Nat), u32sub high low > MAX_MAP_RANGE →
        c.map_cid_range low high dst = none)
    ∧ (∀ (c : CMap) (low high : Nat) (s : List Nat), u32sub high low > MAX_MAP_RANGE →
        c.map_bf_range low high s = none)
    ∧ (∀ (c : CMap) (low high : Nat) (arr : List Nat), u32sub high low > MAX_MAP_RANGE →
        c.map_bf_range_to_array low high arr = none)
    ∧ (∀ (f : Nat) (cm : CMap) (lx : Lexer),
        (get_obj lx).1 = Token.command (strCodes "begincidrange") →
        parse_cid_rangeF (get_obj lx).2.fuel cm (get_obj lx).2 = .perr →
        parse_cmapF (f + 1) cm lx = .perr)
    ∧ parse_cmap (strCodes
        "1 begincidchar <01> 7 endcidchar 1 begincidrange <00> <01000000> 0 endcidrange") =
      none
    ∧ parse_cmap (strCodes "1 beginbfrange <00> <01000000> <00> endbfrange") = none
    ∧ parse_cmap (strCodes "1 beginbfrange <00> <01000000> [ 1 ] endbfrange") = none := by
  refine ⟨?_, ?_, ?_, ?_, by decide, by decide, by decide⟩
  · intro c low high dst h
    rw [CMap.map_cid_range, if_pos h]
  · intro c low high s h
    rw [CMap.map_bf_range, if_pos h]
  · intro c low high arr h
    rw [CMap.map_bf_range_to_array, if_pos h]
  · intro f cm lx hcmd hfail
    have h1 : ¬(strCodes "begincidrange" = strCodes "endcmap") := by decide
    have h2 : ¬(strCodes "begincidrange" = strCodes "begincodespacerange") := by decide
    have h3 : ¬(strCodes "begincidrange" = strCodes "beginbfchar") := by decide
    have h4 : ¬(strCodes "begincidrange" = strCodes "begincidchar") := by decide
    have h5 : ¬(strCodes "begincidrange" = strCodes "beginbfrange") := by decide
    simp only [parse_cmapF, hcmd, if_neg h1, if_neg h2, if_neg h3, if_neg h4, if_neg h5,
      eq_self_iff_true, if_true, hfail]

/-- Witness for C5 at a concrete oversized range. -/
theorem c5_oversized_range_aborts_witness :
    CMap.new.map_cid_range 0 0x1000000 0 = none
    ∧ CMap.new.map_bf_range 0 0x1000000 [0] = none := by
  constructor
  · exact c5_oversized_range_aborts.1 CMap.new 0 0x1000000 0 (by decide)
  · exact c5_oversized_range_aborts.2.1 CMap.new 0 0x1000000 [0] (by decide)

theorem bfStep_ascii (c : Nat) (h : c < 0x7F) : CMap.bfStep [c] = [c + 1] := by
  have hc80 : c < 0x80 := by omega
  have henc : utf8Encode [c] = [c] := by
    simp only [utf8Encode, List.map, utf8EncodeChar, if_pos hc80]
    simp
  simp only [CMap.bfStep, henc]
  show from_utf8_lossy
      (if c = 255 then
        if [c].length > 1 then
          ([c].set ([c].length - 2) (([c].getD ([c].length - 2) 0 + 1) % 256)).set
            ([c].length - 1) 0
        else [c]
      else [c].dropLast ++ [(c + 1) % 256]) = [c + 1]
  rw [if_neg (by omega : ¬c = 255)]
  rw [show ([c].dropLast : List Nat) = [] from rfl]
  simp only [List.nil_append]
  rw [Nat.mod_eq_of_lt (by omega : c + 1 < 256)]
  show lossyF 1 [c + 1] = [c + 1]
  simp only [lossyF, if_pos (by omega : c + 1 < 0x80)]

theorem mapGet_bfRangeLoop_ascii (k : Nat) :
    ∀ (m : List (Nat × Nat)) (low c0 x : Nat), low + k ≤ U32MOD → c0 + k ≤ 0x80 →
    CMap.mapGet (CMap.bfRangeLoop m low [c0] k) x =
      if low ≤ x ∧ x < low + k then some (c0 + (x - low)) else CMap.mapGet m x := by
  induction k with
  | zero =>
    intro m low c0 x _ _
    rw [show CMap.bfRangeLoop m low [c0] 0 = m from rfl,
      if_neg (by omega : ¬(low ≤ x ∧ x < low + 0))]
  | succ k ih =>
    intro m low c0 x hlk hc
    show CMap.mapGet (CMap.bfRangeLoop (CMap.mapInsert m low (bf_string_char [c0]))
      ((low + 1) % U32MOD) (CMap.bfStep [c0]) k) x = _
    rw [show bf_string_char [c0] = c0 from rfl]
    cases k with
    | zero =>
      show CMap.mapGet (CMap.mapInsert m low c0) x = _
      rw [mapGet_mapInsert]
      by_cases hx : x = low
      · rw [if_pos hx, if_pos (by omega), hx, Nat.sub_self, Nat.add_zero]
      · rw [if_neg hx, if_neg (by omega)]
    | succ k' =>
      have hstep : CMap.bfStep [c0] = [c0 + 1] := bfStep_ascii c0 (by omega)
      have hlow : (low + 1) % U32MOD = low + 1 := Nat.mod_eq_of_lt (by omega)
      rw [hstep, hlow, ih _ _ _ _ (by omega) (by omega)]
      by_cases hx : low ≤ x ∧ x < low + (k' + 1 + 1)
      · by_cases hx1 : low + 1 ≤ x
        · rw [if_pos (by omega : low + 1 ≤ x ∧ x < low + 1 + (k' + 1)), if_pos hx]
          congr 1
          omega
        · rw [if_neg (by omega : ¬(low + 1 ≤ x ∧ x < low + 1 + (k' + 1))),
            mapGet_mapInsert, if_pos (by omega : x = low), if_pos hx,
            (by omega : x = low), Nat.sub_self, Nat.add_zero]
      · rw [if_neg (by omega : ¬(low + 1 ≤ x ∧ x < low + 1 + (k' + 1))), if_neg hx,
          mapGet_mapInsert, if_neg (by omega : ¬x = low)]

/-- C6 counterexample: for `map_bf_range` with `low = 0`, `high = 1` and
destination string `"\x7F"`, the code stores `0xFFFD` for source code 1:
the increment bumps the UTF-8 byte `0x7F` to `0x80`, which is invalid
UTF-8, so the lossy re-decode turns the string into U+FFFD.  The claim's
big-endian byte increment instead predicts the string `"\x80"`, whose
first character is `0x80`. -/
theorem c6_counterexample :
    (CMap.new.map_bf_range 0 1 [0x7F]).map (fun c => CMap.mapGet c.map 1) =
      some (some 0xFFFD)
    ∧ bf_string_char (specBfIncrement [0x7F]) = 0x80
    ∧ (0xFFFD : Nat) ≠ 0x80 := by
  refine ⟨by decide, by decide, by decide⟩

/-- C6 amended: the increment operates on the UTF-8 bytes of the string
followed by a lossy re-decode (and the `0xFF` branch of the source is
unreachable, `0xFF` never occurring in valid UTF-8).  For a single-byte
ASCII destination `c0` with `c0 + (high - low) ≤ 0x7F` the byte increment
and the claim agree: source code `x` in `[low, high]` maps to
`c0 + (x - low)`, and codes outside are absent. -/
theorem c6_bf_range_ascii (low high c0 x : Nat)
    (hlh : low ≤ high) (hhi : high + 1 < U32MOD) (hc : c0 + (high - low) ≤ 0x7F) :
    ∃ cm : CMap, CMap.new.map_bf_range low high [c0] = some cm ∧
      (low ≤ x → x ≤ high → CMap.mapGet cm.map x = some (c0 + (x - low))) ∧
      (¬(low ≤ x ∧ x ≤ high) → CMap.mapGet cm.map x = none) := by
  have hguard : ¬(u32sub high low > MAX_MAP_RANGE) := by
    have heq : u32sub high low = high - low := by
      simp only [u32sub, U32MOD]
      omega
    rw [heq]
    simp only [MAX_MAP_RANGE]
    omega
  refine ⟨_, by rw [CMap.map_bf_range, if_neg hguard], ?_, ?_⟩
  · intro h1 h2
    have hget := mapGet_bfRangeLoop_ascii (high + 1 - low) CMap.new.map low c0 x
      (by omega) (by omega)
    rw [if_pos (by omega : low ≤ x ∧ x < low + (high + 1 - low))] at hget
    exact hget
  · intro hx
    have hget := mapGet_bfRangeLoop_ascii (high + 1 - low) CMap.new.map low c0 x
      (by omega) (by omega)
    rw [if_neg (by omega : ¬(low ≤ x ∧ x < low + (high + 1 - low)))] at hget
    exact hget.trans rfl

/-- Witness for the amended C6: destination `"A"` over `[0, 2]` maps `1`
to `0x42` and misses `5`. -/
theorem c6_bf_range_ascii_witness :
    ∃ cm : CMap, CMap.new.map_bf_range 0 2 [0x41] = some cm ∧
      CMap.mapGet cm.map 1 = some 0x42 ∧ CMap.mapGet cm.map 5 = none := by
  obtain ⟨cm, hcm, hin, _⟩ :=
    c6_bf_range_ascii 0 2 0x41 1 (by norm_num) (by norm_num [U32MOD]) (by norm_num)
  obtain ⟨cm', hcm', _, hout⟩ :=
    c6_bf_range_ascii 0 2 0x41 5 (by norm_num) (by norm_num [U32MOD]) (by norm_num)
  have hcc : cm' = cm := by
    rw [hcm] at hcm'
    exact (Option.some_inj.mp hcm').symm
  refine ⟨cm, hcm, ?_, ?_⟩
  · have := hin (by norm_num) (by norm_num)
    simpa using this
  · rw [← hcc]
    exact hout (by norm_num)

theorem parse_bf_charF_step (f : Nat) (cmap : CMap) (lx : Lexer) (src_str dst_str : List Nat)
    (h1 : (get_obj lx).1 = Token.hexString src_str)
    (h2 : (get_obj (get_obj lx).2).1 = Token.hexString dst_str) :
    parse_bf_charF (f + 1) cmap lx =
      parse_bf_charF f
        (if dst_str.length ≤ 2 then
          if isValidCodePoint (str_to_int dst_str) then
            cmap.map_one (str_to_int src_str) (str_to_int dst_str)
          else cmap.map_one (str_to_int src_str) (bf_string_char dst_str)
        else cmap.map_one (str_to_int src_str) (bf_string_char dst_str))
        (get_obj (get_obj lx).2).2 := by
  simp only [parse_bf_charF, h1, h2, expect_string]

/-- C7 counterexample: in `beginbfchar <41> <D800> endbfchar` the 2-char
destination packs to `0xD800`, which is a surrogate, so the code does not
store the packed value: it stores the first character `0xD8`, not
`0xD800` as the claim requires. -/
theorem c7_counterexample :
    (parse_cmap (strCodes "1 beginbfchar <41> <D800> endbfchar")).map
        (fun c => c.lookup_code 0x41) = some (some 0xD8)
    ∧ str_to_int [0xD8, 0x00] = 0xD800
    ∧ (0xD8 : Nat) ≠ 0xD800 := by
  refine ⟨by decide, by decide, by decide⟩

/-- C7 amended: in `beginbfchar`, a destination of at most 2 characters
is stored as its big-endian packing only when the packed value is a valid
Unicode scalar; otherwise — and always for destinations of more than 2
characters — the first character's code point is stored. -/
theorem c7_bf_char_destination (f : Nat) (cmap : CMap) (lx : Lexer)
    (src_str dst_str : List Nat)
    (h1 : (get_obj lx).1 = Token.hexString src_str)
    (h2 : (get_obj (get_obj lx).2).1 = Token.hexString dst_str) :
    parse_bf_charF (f + 1) cmap lx =
      parse_bf_charF f
        (cmap.map_one (str_to_int src_str)
          (if dst_str.length ≤ 2 ∧ isValidCodePoint (str_to_int dst_str) = true then
            str_to_int dst_str
          else bf_string_char dst_str))
        (get_obj (get_obj lx).2).2 := by
  rw [parse_bf_charF_step f cmap lx src_str dst_str h1 h2]
  congr 1
  by_cases hl : dst_str.length ≤ 2
  · by_cases hv : isValidCodePoint (str_to_int dst_str) = true
    · rw [if_pos hl, if_pos hv, if_pos ⟨hl, hv⟩]
    · rw [if_pos hl, if_neg hv, if_neg (by tauto)]
  · rw [if_neg hl, if_neg (by tauto)]

/-- Witness for the amended C7 on the entry `<41> <0042>` (2 characters,
valid scalar `0x42`). -/
theorem c7_bf_char_destination_witness :
    parse_bf_charF 2 CMap.new ⟨strCodes "<41> <0042> endbfchar", 0⟩ =
      parse_bf_charF 1
        (CMap.new.map_one (str_to_int [0x41])
          (if ([0x00, 0x42] : List Nat).length ≤ 2 ∧
              isValidCodePoint (str_to_int [0x00, 0x42]) = true then
            str_to_int [0x00, 0x42]
          else bf_string_char [0x00, 0x42]))
        (get_obj (get_obj ⟨strCodes "<41> <0042> endbfchar", 0⟩).2).2 :=
  c7_bf_char_destination 1 CMap.new ⟨strCodes "<41> <0042> endbfchar", 0⟩
    [0x41] [0x00, 0x42] (by decide) (by decide)

/-- C9: in `beginbfchar`, when a destination of at most 2 characters
packs to a value that is not a valid Unicode scalar (`char::from_u32`
fails, e.g. on surrogates), the packed value is not stored: the code
point of the destination's first character is stored instead. -/
theorem c9_bf_char_invalid_scalar_fallback (f : Nat) (cmap : CMap) (lx : Lexer)
    (src_str dst_str : List Nat)
    (h1 : (get_obj lx).1 = Token.hexString src_str)
    (h2 : (get_obj (get_obj lx).2).1 = Token.hexString dst_str)
    (hlen : dst_str.length ≤ 2)
    (hinv : isValidCodePoint (str_to_int dst_str) = false) :
    parse_bf_charF (f + 1) cmap lx =
      parse_bf_charF f
        (cmap.map_one (str_to_int src_str) (bf_string_char dst_str))
        (get_obj (get_obj lx).2).2 := by
  rw [parse_bf_charF_step f cmap lx src_str dst_str h1 h2, if_pos hlen,
    if_neg (by simp [hinv])]

/-- Witness for C9 on the surrogate entry `<41> <D800>`. -/
theorem c9_bf_char_invalid_scalar_fallback_witness :
    parse_bf_charF 2 CMap.new ⟨strCodes "<41> <D800> endbfchar", 0⟩ =
      parse_bf_charF 1
        (CMap.new.map_one (str_to_int [0x41]) (bf_string_char [0xD8, 0x00]))
        (get_obj (get_obj ⟨strCodes "<41> <D800> endbfchar", 0⟩).2).2 :=
  c9_bf_char_invalid_scalar_fallback 1 CMap.new ⟨strCodes "<41> <D800> endbfchar", 0⟩
    [0x41] [0xD8, 0x00] (by decide) (by decide) (by decide) (by decide)

/-- C8: in the binary type 2 (cidchar) record, `read_signed` zig-zag
decodes the raw varint `n` to `-(n >> 1) - 1` when `n` is odd and
`n >> 1` when even, and each item after the first updates the running
code to `code + delta + 1` computed in exact (at-least-64-bit) integer
arithmetic and truncated to 32 bits, which wraps around for negative
sums. -/
theorem c8_type2_code_accumulation :
    (∀ (s s' : BStream) (n : Nat), read_number s = .pok (n, s') →
      read_signed s = .pok
        ((if n % 2 = 1 then -(Int.ofNat (n >>> 1)) - 1 else Int.ofNat (n >>> 1)), s'))
    ∧ (∀ (code : Nat) (delta : Int),
        cidCharCode code delta = ((Int.ofNat code + delta + 1).emod (2 ^ 32)).toNat)
    ∧ (∀ (k : Nat) (s s1 : BStream) (cmap : CMap) (char tmp : List Nat)
        (dataSize code : Nat) (delta : Int),
        read_signed s = .pok (delta, s1) →
        cidCharItems (k + 1) s cmap char tmp dataSize true code =
          cidCharItems k s1
            (cmap.map_one (hex_to_int (inc_hex char dataSize) dataSize)
              (cidCharCode code delta))
            (inc_hex char dataSize) tmp dataSize true (cidCharCode code delta))
    ∧ cidCharCode 0 (-2) = 0xFFFFFFFF := by
  refine ⟨?_, ?_, ?_, by decide⟩
  · intro s s' n h
    simp only [read_signed, h]
  · intro code delta
    rfl
  · intro k s s1 cmap char tmp dataSize code delta h
    simp only [cidCharItems, h, if_true]

/-- Witness for C8: decoding the odd varint `0x05` yields `-3` and the
code accumulation `1 + (-3) + 1` truncates to `0xFFFFFFFF`. -/
theorem c8_type2_code_accumulation_witness :
    read_signed ⟨[0x05], 0, 1⟩ = .pok (-3, ⟨[0x05], 1, 1⟩)
    ∧ cidCharItems 1 ⟨[0x05], 0, 1⟩ CMap.new [0] [0] 0 true 1 =
      cidCharItems 0 ⟨[0x05], 1, 1⟩
        (CMap.new.map_one (hex_to_int (inc_hex [0] 0) 0) (cidCharCode 1 (-3)))
        (inc_hex [0] 0) [0] 0 true (cidCharCode 1 (-3)) := by
  have h1 := c8_type2_code_accumulation.1 ⟨[0x05], 0, 1⟩ ⟨[0x05], 1, 1⟩ 5 (by decide)
  have h1' : read_signed ⟨[0x05], 0, 1⟩ = .pok (-3, ⟨[0x05], 1, 1⟩) := by
    rw [h1]
    decide
  exact ⟨h1', c8_type2_code_accumulation.2.2.1 0 ⟨[0x05], 0, 1⟩ ⟨[0x05], 1, 1⟩
    CMap.new [0] [0] 0 1 (-3) h1'⟩

/-! ## Termination of the textual parser (C10)

Fuel-sufficiency, monotonicity and position bounds for every lexer loop,
then for `get_obj`, then for every directive loop, then for the top-level
loop.  Positions never exceed `input.length + 1` (the parenthesis-string
escape can step one past the end), and every loop iteration strictly
advances, so fuel `input.length + 2` never runs out. -/

theorem Lexer.fuel_eq_of_input_eq {lx lx' : Lexer} (h : lx'.input = lx.input) :
    lx'.fuel = lx.fuel := by simp [Lexer.fuel, h]

theorem Lexer.len_eq_of_input_eq {lx lx' : Lexer} (h : lx'.input = lx.input) :
    lx'.len = lx.len := by simp [Lexer.len, h]

theorem skipWsF_spec (f : Nat) : ∀ lx : Lexer, lx.input.length - lx.position < f →
    ∃ lx' : Lexer, skipWsF f lx = some lx' ∧ lx'.input = lx.input ∧
      lx.position ≤ lx'.position ∧
      (lx.position ≤ lx.input.length + 1 → lx'.position ≤ lx.input.length + 1) := by
  induction f with
  | zero => intro lx h; omega
  | succ f ih =>
    intro lx h
    by_cases hp : lx.position < lx.len
    · have hp' : lx.position < lx.input.length := hp
      by_cases hw : isWs lx.cur = true
      · obtain ⟨lx', h1, h2, h3, h4⟩ := ih { lx with position := lx.position + 1 }
          (by show lx.input.length - (lx.position + 1) < f; omega)
        have h2' : lx'.input = lx.input := h2
        have h3' : lx.position + 1 ≤ lx'.position := h3
        have h4' : lx.position + 1 ≤ lx.input.length + 1 →
            lx'.position ≤ lx.input.length + 1 := h4
        refine ⟨lx', ?_, h2', by omega, fun _ => h4' (by omega)⟩
        simp only [skipWsF, if_pos hp, hw, if_true]
        exact h1
      · refine ⟨lx, ?_, rfl, le_refl _, fun hh => hh⟩
        simp only [skipWsF, if_pos hp, hw, Bool.false_eq_true, if_false]
    · refine ⟨lx, ?_, rfl, le_refl _, fun hh => hh⟩
      simp only [skipWsF, if_neg hp]

theorem skipCommentF_spec (f : Nat) : ∀ lx : Lexer, lx.input.length - lx.position < f →
    ∃ lx' : Lexer, skipCommentF f lx = some lx' ∧ lx'.input = lx.input ∧
      lx.position ≤ lx'.position ∧
      (lx.position ≤ lx.input.length + 1 → lx'.position ≤ lx.input.length + 1) ∧
      (lx.position < lx.input.length → lx.position < lx'.position) := by
  induction f with
  | zero => intro lx h; omega
  | succ f ih =>
    intro lx h
    by_cases hp : lx.position < lx.len
    · have hp' : lx.position < lx.input.length := hp
      by_cases hnl : (decide (lx.cur = 10) || decide (lx.cur = 13)) = true
      · refine ⟨{ lx with position := lx.position + 1 }, ?_, rfl,
          by show lx.position ≤ lx.position + 1; omega, ?_, ?_⟩
        · simp only [skipCommentF, if_pos hp, hnl, if_true]
        · intro
          show lx.position + 1 ≤ lx.input.length + 1
          omega
        · intro
          show lx.position < lx.position + 1
          omega
      · obtain ⟨lx', h1, h2, h3, h4, _⟩ := ih { lx with position := lx.position + 1 }
          (by show lx.input.length - (lx.position + 1) < f; omega)
        have h2' : lx'.input = lx.input := h2
        have h3' : lx.position + 1 ≤ lx'.position := h3
        have h4' : lx.position + 1 ≤ lx.input.length + 1 →
            lx'.position ≤ lx.input.length + 1 := h4
        refine ⟨lx', ?_, h2', by omega, fun _ => h4' (by omega), fun _ => by omega⟩
        simp only [skipCommentF, if_pos hp, hnl, Bool.false_eq_true, if_false]
        exact h1
    · refine ⟨lx, ?_, rfl, le_refl _, fun hh => hh, ?_⟩
      · simp only [skipCommentF, if_neg hp]
      · intro hc
        have hp2 : ¬lx.position < lx.input.length := hp
        omega

theorem hexCharsF_spec (f : Nat) : ∀ (lx : Lexer) (acc : List Nat),
    lx.input.length - lx.position < f →
    ∃ out : List Nat × Lexer, hexCharsF f lx acc = some out ∧ out.2.input = lx.input ∧
      lx.position ≤ out.2.position ∧
      (lx.position ≤ lx.input.length + 1 → out.2.position ≤ lx.input.length + 1) := by
  induction f with
  | zero => intro lx acc h; omega
  | succ f ih =>
    intro lx acc h
    by_cases hp : lx.position < lx.len
    · have hp' : lx.position < lx.input.length := hp
      by_cases hgt : lx.cur = 62
      · refine ⟨(acc, { lx with position := lx.position + 1 }), ?_, rfl, ?_, ?_⟩
        · simp only [hexCharsF, if_pos hp, if_pos hgt]
        · show lx.position ≤ lx.position + 1
          omega
        · intro
          show lx.position + 1 ≤ lx.input.length + 1
          omega
      · obtain ⟨out, h1, h2, h3, h4⟩ := ih { lx with position := lx.position + 1 }
          (if isHexDigit lx.cur then acc ++ [lx.cur] else acc)
          (by show lx.input.length - (lx.position + 1) < f; omega)
        have h2' : out.2.input = lx.input := h2
        have h3' : lx.position + 1 ≤ out.2.position := h3
        have h4' : lx.position + 1 ≤ lx.input.length + 1 →
            out.2.position ≤ lx.input.length + 1 := h4
        refine ⟨out, ?_, h2', by omega, fun _ => h4' (by omega)⟩
        simp only [hexCharsF, if_pos hp, if_neg hgt]
        exact h1
    · refine ⟨(acc, lx), ?_, rfl, le_refl _, fun hh => hh⟩
      simp only [hexCharsF, if_neg hp]

theorem psStringF_spec (f : Nat) : ∀ (lx : Lexer) (acc : List Nat) (depth : Nat),
    lx.input.length - lx.position < f →
    ∃ out : List Nat × Lexer, psStringF f lx acc depth = some out ∧
      out.2.input = lx.input ∧ lx.position ≤ out.2.position ∧
      (lx.position ≤ lx.input.length + 1 → out.2.position ≤ lx.input.length + 1) := by
  induction f with
  | zero => intro lx acc depth h; omega
  | succ f ih =>
    intro lx acc depth h
    by_cases hc : (decide (lx.position < lx.len) && decide (0 < depth)) = true
    · have hp' : lx.position < lx.input.length := by
        simp only [Bool.and_eq_true, decide_eq_true_eq] at hc
        exact hc.1
      by_cases h40 : lx.cur = 40
      · obtain ⟨out, h1, h2, h3, h4⟩ := ih { lx with position := lx.position + 1 }
          (acc ++ [lx.cur]) (depth + 1)
          (by show lx.input.length - (lx.position + 1) < f; omega)
        have h2' : out.2.input = lx.input := h2
        have h3' : lx.position + 1 ≤ out.2.position := h3
        have h4' : lx.position + 1 ≤ lx.input.length + 1 →
            out.2.position ≤ lx.input.length + 1 := h4
        refine ⟨out, ?_, h2', by omega, fun _ => h4' (by omega)⟩
        simp only [psStringF, hc, if_true, if_pos h40]
        exact h1
      · by_cases h41 : lx.cur = 41
        · obtain ⟨out, h1, h2, h3, h4⟩ := ih { lx with position := lx.position + 1 }
            (if depth - 1 > 0 then acc ++ [lx.cur] else acc) (depth - 1)
            (by show lx.input.length - (lx.position + 1) < f; omega)
          have h2' : out.2.input = lx.input := h2
          have h3' : lx.position + 1 ≤ out.2.position := h3
          have h4' : lx.position + 1 ≤ lx.input.length + 1 →
              out.2.position ≤ lx.input.length + 1 := h4
          refine ⟨out, ?_, h2', by omega, fun _ => h4' (by omega)⟩
          simp only [psStringF, hc, if_true, if_neg h40, if_pos h41]
          exact h1
        · by_cases h92 : lx.cur = 92
          · by_cases hp1 : lx.position + 1 < lx.len
            · obtain ⟨out, h1, h2, h3, h4⟩ := ih { lx with position := lx.position + 2 }
                (acc ++ [92, lx.byte (lx.position + 1)]) depth
                (by show lx.input.length - (lx.position + 2) < f; omega)
              have h2' : out.2.input = lx.input := h2
              have h3' : lx.position + 2 ≤ out.2.position := h3
              have h4' : lx.position + 2 ≤ lx.input.length + 1 →
                  out.2.position ≤ lx.input.length + 1 := h4
              refine ⟨out, ?_, h2', by omega, fun _ => h4' (by omega)⟩
              simp only [psStringF, hc, if_true, if_neg h40, if_neg h41, if_pos h92,
                if_pos hp1]
              exact h1
            · obtain ⟨out, h1, h2, h3, h4⟩ := ih { lx with position := lx.position + 2 }
                acc depth (by show lx.input.length - (lx.position + 2) < f; omega)
              have h2' : out.2.input = lx.input := h2
              have h3' : lx.position + 2 ≤ out.2.position := h3
              have h4' : lx.position + 2 ≤ lx.input.length + 1 →
                  out.2.position ≤ lx.input.length + 1 := h4
              refine ⟨out, ?_, h2', by omega, fun _ => h4' (by omega)⟩
              simp only [psStringF, hc, if_true, if_neg h40, if_neg h41, if_pos h92,
                if_neg hp1]
              exact h1
          · obtain ⟨out, h1, h2, h3, h4⟩ := ih { lx with position := lx.position + 1 }
              (acc ++ [lx.cur]) depth
              (by show lx.input.length - (lx.position + 1) < f; omega)
            have h2' : out.2.input = lx.input := h2
            have h3' : lx.position + 1 ≤ out.2.position := h3
            have h4' : lx.position + 1 ≤ lx.input.length + 1 →
                out.2.position ≤ lx.input.length + 1 := h4
            refine ⟨out, ?_, h2', by omega, fun _ => h4' (by omega)⟩
            simp only [psStringF, hc, if_true, if_neg h40, if_neg h41, if_neg h92]
            exact h1
    · refine ⟨(acc, lx), ?_, rfl, le_refl _, fun hh => hh⟩
      simp only [psStringF, hc, Bool.false_eq_true, if_false]

theorem tokenCharsF_spec (f : Nat) : ∀ (lx : Lexer) (acc : List Nat),
    lx.input.length - lx.position < f →
    ∃ out : List Nat × Lexer, tokenCharsF f lx acc = some out ∧ out.2.input = lx.input ∧
      out.2.position = lx.position + (out.1.length - acc.length) ∧
      acc.length ≤ out.1.length ∧
      (lx.position ≤ lx.input.length + 1 → out.2.position ≤ lx.input.length + 1) := by
  induction f with
  | zero => intro lx acc h; omega
  | succ f ih =>
    intro lx acc h
    by_cases hp : lx.position < lx.len
    · have hp' : lx.position < lx.input.length := hp
      by_cases hbr : (isWs lx.cur || isDelim lx.cur) = true
      · refine ⟨(acc, lx), ?_, rfl, by simp, le_refl _, fun hh => hh⟩
        simp only [tokenCharsF, if_pos hp, hbr, if_true]
      · obtain ⟨out, h1, h2, h3, h4, h5⟩ := ih { lx with position := lx.position + 1 }
          (acc ++ [lx.cur]) (by show lx.input.length - (lx.position + 1) < f; omega)
        have h2' : out.2.input = lx.input := h2
        have h3' : out.2.position = (lx.position + 1) + (out.1.length - (acc ++ [lx.cur]).length) := h3
        have h4' : (acc ++ [lx.cur]).length ≤ out.1.length := h4
        have h5' : lx.position + 1 ≤ lx.input.length + 1 →
            out.2.position ≤ lx.input.length + 1 := h5
        have hlen : (acc ++ [lx.cur]).length = acc.length + 1 := by simp
        refine ⟨out, ?_, h2', by omega, by omega, fun _ => h5' (by omega)⟩
        simp only [tokenCharsF, if_pos hp, hbr, Bool.false_eq_true, if_false]
        exact h1
    · refine ⟨(acc, lx), ?_, rfl, by simp, le_refl _, fun hh => hh⟩
      simp only [tokenCharsF, if_neg hp]

theorem getObjF_spec (f : Nat) : ∀ lx : Lexer,
    lx.input.length + 2 - lx.position ≤ f → lx.position ≤ lx.input.length + 1 →
    ∃ tok lx', getObjF f lx = some (tok, lx') ∧ lx'.input = lx.input ∧
      lx.position ≤ lx'.position ∧ lx'.position ≤ lx.input.length + 1 ∧
      (tok = Token.eof ∨ lx.position < lx'.position) := by
  induction f with
  | zero => intro lx h hpos; omega
  | succ f ih =>
    intro lx h hpos
    obtain ⟨lx1, hws, hin1, hmono1, hbnd1⟩ := skipWsF_spec lx.fuel lx
      (by show lx.input.length - lx.position < lx.input.length + 2; omega)
    have hpos1 : lx1.position ≤ lx.input.length + 1 := hbnd1 hpos
    have hL1 : lx1.input.length = lx.input.length := by rw [hin1]
    by_cases hend : lx1.position ≥ lx1.len
    · refine ⟨Token.eof, lx1, ?_, hin1, hmono1, hpos1, Or.inl rfl⟩
      simp only [getObjF, hws, if_pos hend]
    · have hlt : lx1.position < lx1.input.length := by
        have := hend
        simp only [Lexer.len] at this
        omega
      by_cases b37 : lx1.cur = 37
      · obtain ⟨lx2, hcm, hin2, hmono2, hbnd2, hstrict2⟩ := skipCommentF_spec lx1.fuel lx1
          (by show lx1.input.length - lx1.position < lx1.input.length + 2; omega)
        have hst : lx1.position < lx2.position := hstrict2 hlt
        have hbnd2' : lx2.position ≤ lx1.input.length + 1 := hbnd2 (by omega)
        have hL2 : lx2.input.length = lx1.input.length := by rw [hin2]
        obtain ⟨lx3, hws3, hin3, hmono3, hbnd3⟩ := skipWsF_spec lx2.fuel lx2
          (by show lx2.input.length - lx2.position < lx2.input.length + 2; omega)
        have hbnd3' : lx3.position ≤ lx2.input.length + 1 := hbnd3 (by omega)
        have hL3 : lx3.input.length = lx2.input.length := by rw [hin3]
        obtain ⟨tok, lx', hrec, hin', hmono', hbnd', _⟩ := ih lx3
          (by omega) (by omega)
        refine ⟨tok, lx', ?_, by rw [hin', hin3, hin2, hin1], by omega, by omega,
          Or.inr (by omega)⟩
        simp only [getObjF, hws, if_neg hend, if_pos b37, hcm, hws3]
        exact hrec
      · by_cases hgg : (decide (lx1.position + 2 ≤ lx1.len) && decide (lx1.cur = 62) &&
            decide (lx1.byte (lx1.position + 1) = 62)) = true
        · have hb2 : lx1.position + 2 ≤ lx1.input.length := by
            simp only [Bool.and_eq_true, decide_eq_true_eq] at hgg
            exact hgg.1.1
          refine ⟨Token.command (strCodes ">>"), { lx1 with position := lx1.position + 2 },
            ?_, hin1, by show lx.position ≤ lx1.position + 2; omega,
            by show lx1.position + 2 ≤ lx.input.length + 1; omega,
            Or.inr (by show lx.position < lx1.position + 2; omega)⟩
          simp only [getObjF, hws, if_neg hend, if_neg b37, hgg, if_true]
        · by_cases b60 : lx1.cur = 60
          · by_cases hdd : (decide (lx1.position + 2 ≤ lx1.len) &&
                decide (lx1.byte (lx1.position + 1) = 60)) = true
            · have hb2 : lx1.position + 2 ≤ lx1.input.length := by
                simp only [Bool.and_eq_true, decide_eq_true_eq] at hdd
                exact hdd.1
              refine ⟨Token.command (strCodes "<<"),
                { lx1 with position := lx1.position + 2 }, ?_, hin1,
                by show lx.position ≤ lx1.position + 2; omega,
                by show lx1.position + 2 ≤ lx.input.length + 1; omega,
                Or.inr (by show lx.position < lx1.position + 2; omega)⟩
              simp only [getObjF, hws, if_neg hend, if_neg b37, hgg, Bool.false_eq_true,
                if_false, if_pos b60, hdd, if_true]
            · obtain ⟨out, hhex, hino, hmonoo, hbndo⟩ := hexCharsF_spec lx1.fuel
                { lx1 with position := lx1.position + 1 } []
                (by show lx1.input.length - (lx1.position + 1) < lx1.input.length + 2
                    omega)
              have hino' : out.2.input = lx1.input := hino
              have hmonoo' : lx1.position + 1 ≤ out.2.position := hmonoo
              have hbndo' : out.2.position ≤ lx1.input.length + 1 :=
                hbndo (by show lx1.position + 1 ≤ lx1.input.length + 1; omega)
              refine ⟨Token.hexString (hexPairs out.1), out.2, ?_, by rw [hino', hin1],
                by omega, by omega, Or.inr (by omega)⟩
              simp only [getObjF, hws, if_neg hend, if_neg b37, hgg, Bool.false_eq_true,
                if_false, if_pos b60, hdd, hhex]
          · by_cases b40 : lx1.cur = 40
            · obtain ⟨out, hps, hino, hmonoo, hbndo⟩ := psStringF_spec lx1.fuel
                { lx1 with position := lx1.position + 1 } [] 1
                (by show lx1.input.length - (lx1.position + 1) < lx1.input.length + 2
                    omega)
              have hino' : out.2.input = lx1.input := hino
              have hmonoo' : lx1.position + 1 ≤ out.2.position := hmonoo
              have hbndo' : out.2.position ≤ lx1.input.length + 1 :=
                hbndo (by show lx1.position + 1 ≤ lx1.input.length + 1; omega)
              refine ⟨Token.str out.1, out.2, ?_, by rw [hino', hin1], by omega,
                by omega, Or.inr (by omega)⟩
              simp only [getObjF, hws, if_neg hend, if_neg b37, hgg, Bool.false_eq_true,
                if_false, if_neg b60, if_pos b40, hps]
            · by_cases b91 : lx1.cur = 91
              · refine ⟨Token.command (strCodes "["),
                  { lx1 with position := lx1.position + 1 }, ?_, hin1,
                  by show lx.position ≤ lx1.position + 1; omega,
                  by show lx1.position + 1 ≤ lx.input.length + 1; omega,
                  Or.inr (by show lx.position < lx1.position + 1; omega)⟩
                simp only [getObjF, hws, if_neg hend, if_neg b37, hgg, Bool.false_eq_true,
                  if_false, if_neg b60, if_neg b40, if_pos b91]
              · by_cases b93 : lx1.cur = 93
                · refine ⟨Token.command (strCodes "]"),
                    { lx1 with position := lx1.position + 1 }, ?_, hin1,
                    by show lx.position ≤ lx1.position + 1; omega,
                    by show lx1.position + 1 ≤ lx.input.length + 1; omega,
                    Or.inr (by show lx.position < lx1.position + 1; omega)⟩
                  simp only [getObjF, hws, if_neg hend, if_neg b37, hgg,
                    Bool.false_eq_true, if_false, if_neg b60, if_neg b40, if_neg b91,
                    if_pos b93]
                · by_cases b47 : lx1.cur = 47
                  · obtain ⟨out, htk, hino, hpo, hao, hbndo⟩ := tokenCharsF_spec lx1.fuel
                      { lx1 with position := lx1.position + 1 } []
                      (by show lx1.input.length - (lx1.position + 1) < lx1.input.length + 2
                          omega)
                    have hino' : out.2.input = lx1.input := hino
                    have hpo' : out.2.position = (lx1.position + 1) +
                        (out.1.length - ([] : List Nat).length) := hpo
                    have hbndo' : out.2.position ≤ lx1.input.length + 1 :=
                      hbndo (by show lx1.position + 1 ≤ lx1.input.length + 1; omega)
                    have hlen0 : (([] : List Nat)).length = 0 := rfl
                    refine ⟨Token.name out.1, out.2, ?_, by rw [hino', hin1], by omega,
                      by omega, Or.inr (by omega)⟩
                    simp only [getObjF, hws, if_neg hend, if_neg b37, hgg,
                      Bool.false_eq_true, if_false, if_neg b60, if_neg b40, if_neg b91,
                      if_neg b93, if_pos b47, htk]
                  · obtain ⟨out, htk, hino, hpo, hao, hbndo⟩ := tokenCharsF_spec lx1.fuel
                      lx1 []
                      (by show lx1.input.length - lx1.position < lx1.input.length + 2
                          omega)
                    have hino' : out.2.input = lx1.input := hino
                    have hpo' : out.2.position = lx1.position +
                        (out.1.length - ([] : List Nat).length) := hpo
                    have hbndo' : out.2.position ≤ lx1.input.length + 1 :=
                      hbndo (by omega)
                    have hlen0 : (([] : List Nat)).length = 0 := rfl
                    by_cases hae : out.1.isEmpty = true
                    · refine ⟨Token.eof, out.2, ?_, by rw [hino', hin1], by omega,
                        by omega, Or.inl rfl⟩
                      simp only [getObjF, hws, if_neg hend, if_neg b37, hgg,
                        Bool.false_eq_true, if_false, if_neg b60, if_neg b40, if_neg b91,
                        if_neg b93, if_neg b47, htk, hae, if_true]
                    · have hlen1 : 0 < out.1.length := by
                        cases ho : out.1 with
                        | nil => rw [ho] at hae; simp at hae
                        | cons a t => simp [ho]
                      have hstrict : lx.position < out.2.position := by omega
                      cases hpi : parseI32 out.1 with
                      | some i =>
                        refine ⟨Token.int i, out.2, ?_, by rw [hino', hin1], by omega,
                          by omega, Or.inr hstrict⟩
                        simp only [getObjF, hws, if_neg hend, if_neg b37, hgg,
                          Bool.false_eq_true, if_false, if_neg b60, if_neg b40,
                          if_neg b91, if_neg b93, if_neg b47, htk, hae, if_false, hpi]
                      | none =>
                        refine ⟨Token.command out.1, out.2, ?_, by rw [hino', hin1],
                          by omega, by omega, Or.inr hstrict⟩
                        simp only [getObjF, hws, if_neg hend, if_neg b37, hgg,
                          Bool.false_eq_true, if_false, if_neg b60, if_neg b40,
                          if_neg b91, if_neg b93, if_neg b47, htk, hae, if_false, hpi]

theorem get_obj_spec (lx : Lexer) (hpos : lx.position ≤ lx.input.length + 1) :
    (get_obj lx).2.input = lx.input ∧ lx.position ≤ (get_obj lx).2.position ∧
      (get_obj lx).2.position ≤ lx.input.length + 1 ∧
      ((get_obj lx).1 = Token.eof ∨ lx.position < (get_obj lx).2.position) := by
  obtain ⟨tok, lx', h1, h2, h3, h4, h5⟩ := getObjF_spec lx.fuel lx
    (by show lx.input.length + 2 - lx.position ≤ lx.input.length + 2; omega) hpos
  simp only [get_obj, h1, Option.getD_some]
  exact ⟨h2, h3, h4, h5⟩

theorem get_obj_progress (lx : Lexer) :
    (get_obj lx).1 = Token.eof ∨ lx.position < (get_obj lx).2.position := by
  by_cases hpos : lx.position ≤ lx.input.length + 1
  · exact (get_obj_spec lx hpos).2.2.2
  · left
    have hend : lx.position ≥ lx.len := by
      show lx.position ≥ lx.input.length
      omega
    have hws : skipWsF lx.fuel lx = some lx := by
      show skipWsF ((lx.input.length + 1) + 1) lx = some lx
      rw [skipWsF]
      rw [if_neg (show ¬lx.position < lx.len from by
        have hh : ¬lx.position < lx.input.length := by omega
        exact hh)]
    have hobj : getObjF lx.fuel lx = some (Token.eof, lx) := by
      show getObjF ((lx.input.length + 1) + 1) lx = some (Token.eof, lx)
      rw [getObjF]
      simp only [hws]
      rw [if_pos hend]
    simp only [get_obj, hobj, Option.getD_some]

theorem parse_cid_charF_spec (f : Nat) : ∀ (cm : CMap) (lx : Lexer),
    lx.input.length + 2 - lx.position ≤ f → lx.position ≤ lx.input.length + 1 →
    (parse_cid_charF f cm lx ≠ .oof) ∧
    (∀ cm' lx', parse_cid_charF f cm lx = .pok (cm', lx') →
      lx'.input = lx.input ∧ lx.position ≤ lx'.position ∧
        lx'.position ≤ lx.input.length + 1) := by
  induction f with
  | zero => intro cm lx h hpos; omega
  | succ f ih =>
    intro cm lx h hpos
    obtain ⟨hin1, hmono1, hbnd1, hprog1⟩ := get_obj_spec lx hpos
    rcases hro : get_obj lx with ⟨tok, lx1⟩
    rw [hro] at hin1 hmono1 hbnd1 hprog1
    have hin1' : lx1.input = lx.input := hin1
    have hmono1' : lx.position ≤ lx1.position := hmono1
    have hbnd1' : lx1.position ≤ lx.input.length + 1 := hbnd1
    have hL1 : lx1.input.length = lx.input.length := by rw [hin1']
    cases tok with
    | eof =>
      constructor
      · simp only [parse_cid_charF, hro]
        exact fun hq => PRes.noConfusion hq
      · intro cm' lx' heq
        simp only [parse_cid_charF, hro, PRes.pok.injEq, Prod.mk.injEq] at heq
        obtain ⟨h1, h2⟩ := heq
        subst h1
        subst h2
        exact ⟨hin1', hmono1', hbnd1'⟩
    | command cmd =>
      by_cases hcmd : cmd = strCodes "endcidchar"
      · constructor
        · simp only [parse_cid_charF, hro, if_pos hcmd]
          exact fun hq => PRes.noConfusion hq
        · intro cm' lx' heq
          simp only [parse_cid_charF, hro, if_pos hcmd, PRes.pok.injEq,
            Prod.mk.injEq] at heq
          obtain ⟨h1, h2⟩ := heq
          subst h1
          subst h2
          exact ⟨hin1', hmono1', hbnd1'⟩
      · constructor
        · simp only [parse_cid_charF, hro, if_neg hcmd]
          exact fun hq => PRes.noConfusion hq
        · intro cm' lx' heq
          simp only [parse_cid_charF, hro, if_neg hcmd] at heq
          exact PRes.noConfusion heq
    | int i =>
      constructor
      · simp only [parse_cid_charF, hro, expect_string]
        exact fun hq => PRes.noConfusion hq
      · intro cm' lx' heq
        simp only [parse_cid_charF, hro, expect_string] at heq
        exact PRes.noConfusion heq
    | name n =>
      constructor
      · simp only [parse_cid_charF, hro, expect_string]
        exact fun hq => PRes.noConfusion hq
      · intro cm' lx' heq
        simp only [parse_cid_charF, hro, expect_string] at heq
        exact PRes.noConfusion heq
    | str s =>
      have hstrict : lx.position < lx1.position := by
        rcases hprog1 with he | hlt
        · exact absurd he (by simp)
        · exact hlt
      obtain ⟨hin2, hmono2, hbnd2, _⟩ := get_obj_spec lx1 (by omega)
      rcases hro2 : get_obj lx1 with ⟨tok2, lx2⟩
      rw [hro2] at hin2 hmono2 hbnd2
      have hin2' : lx2.input = lx1.input := hin2
      have hmono2' : lx1.position ≤ lx2.position := hmono2
      have hbnd2' : lx2.position ≤ lx1.input.length + 1 := hbnd2
      have hL2 : lx2.input.length = lx1.input.length := by rw [hin2']
      cases hei : expect_int tok2 with
      | none =>
        constructor
        · simp only [parse_cid_charF, hro, expect_string, hro2, hei]
          exact fun hq => PRes.noConfusion hq
        · intro cm' lx' heq
          simp only [parse_cid_charF, hro, expect_string, hro2, hei] at heq
          exact PRes.noConfusion heq
      | some dst =>
        obtain ⟨ihnoof, ihpok⟩ := ih (cm.map_one (str_to_int s) (i32AsU32 dst)) lx2
          (by omega) (by omega)
        constructor
        · simp only [parse_cid_charF, hro, expect_string, hro2, hei]
          exact ihnoof
        · intro cm' lx' heq
          simp only [parse_cid_charF, hro, expect_string, hro2, hei] at heq
          obtain ⟨k1, k2, k3⟩ := ihpok cm' lx' heq
          refine ⟨by rw [k1, hin2', hin1'], by omega, by omega⟩
    | hexString b =>
      have hstrict : lx.position < lx1.position := by
        rcases hprog1 with he | hlt
        · exact absurd he (by simp)
        · exact hlt
      obtain ⟨hin2, hmono2, hbnd2, _⟩ := get_obj_spec lx1 (by omega)
      rcases hro2 : get_obj lx1 with ⟨tok2, lx2⟩
      rw [hro2] at hin2 hmono2 hbnd2
      have hin2' : lx2.input = lx1.input := hin2
      have hmono2' : lx1.position ≤ lx2.position := hmono2
      have hbnd2' : lx2.position ≤ lx1.input.length + 1 := hbnd2
      have hL2 : lx2.input.length = lx1.input.length := by rw [hin2']
      cases hei : expect_int tok2 with
      | none =>
        constructor
        · simp only [parse_cid_charF, hro, expect_string, hro2, hei]
          exact fun hq => PRes.noConfusion hq
        · intro cm' lx' heq
          simp only [parse_cid_charF, hro, expect_string, hro2, hei] at heq
          exact PRes.noConfusion heq
      | some dst =>
        obtain ⟨ihnoof, ihpok⟩ := ih (cm.map_one (str_to_int b) (i32AsU32 dst)) lx2
          (by omega) (by omega)
        constructor
        · simp only [parse_cid_charF, hro, expect_string, hro2, hei]
          exact ihnoof
        · intro cm' lx' heq
          simp only [parse_cid_charF, hro, expect_string, hro2, hei] at heq
          obtain ⟨k1, k2, k3⟩ := ihpok cm' lx' heq
          refine ⟨by rw [k1, hin2', hin1'], by omega, by omega⟩

theorem parse_bf_charF_spec (f : Nat) : ∀ (cm : CMap) (lx : Lexer),
    lx.input.length + 2 - lx.position ≤ f → lx.position ≤ lx.input.length + 1 →
    (parse_bf_charF f cm lx ≠ .oof) ∧
    (∀ cm' lx', parse_bf_charF f cm lx = .pok (cm', lx') →
      lx'.input = lx.input ∧ lx.position ≤ lx'.position ∧
        lx'.position ≤ lx.input.length + 1) := by
  induction f with
  | zero => intro cm lx h hpos; omega
  | succ f ih =>
    intro cm lx h hpos
    obtain ⟨hin1, hmono1, hbnd1, hprog1⟩ := get_obj_spec lx hpos
    rcases hro : get_obj lx with ⟨tok, lx1⟩
    rw [hro] at hin1 hmono1 hbnd1 hprog1
    have hin1' : lx1.input = lx.input := hin1
    have hmono1' : lx.position ≤ lx1.position := hmono1
    have hbnd1' : lx1.position ≤ lx.input.length + 1 := hbnd1
    have hL1 : lx1.input.length = lx.input.length := by rw [hin1']
    cases tok with
    | eof =>
      constructor
      · simp only [parse_bf_charF, hro]
        exact fun hq => PRes.noConfusion hq
      · intro cm' lx' heq
        simp only [parse_bf_charF, hro, PRes.pok.injEq, Prod.mk.injEq] at heq
        obtain ⟨h1, h2⟩ := heq
        subst h1
        subst h2
        exact ⟨hin1', hmono1', hbnd1'⟩
    | command cmd =>
      by_cases hcmd : cmd = strCodes "endbfchar"
      · constructor
        · simp only [parse_bf_charF, hro, if_pos hcmd]
          exact fun hq => PRes.noConfusion hq
        · intro cm' lx' heq
          simp only [parse_bf_charF, hro, if_pos hcmd, PRes.pok.injEq,
            Prod.mk.injEq] at heq
          obtain ⟨h1, h2⟩ := heq
          subst h1
          subst h2
          exact ⟨hin1', hmono1', hbnd1'⟩
      · constructor
        · simp only [parse_bf_charF, hro, if_neg hcmd]
          exact fun hq => PRes.noConfusion hq
        · intro cm' lx' heq
          simp only [parse_bf_charF, hro, if_neg hcmd] at heq
          exact PRes.noConfusion heq
    | int i =>
      constructor
      · simp only [parse_bf_charF, hro, expect_string]
        exact fun hq => PRes.noConfusion hq
      · intro cm' lx' heq
        simp only [parse_bf_charF, hro, expect_string] at heq
        exact PRes.noConfusion heq
    | name n =>
      constructor
      · simp only [parse_bf_charF, hro, expect_string]
        exact fun hq => PRes.noConfusion hq
      · intro cm' lx' heq
        simp only [parse_bf_charF, hro, expect_string] at heq
        exact PRes.noConfusion heq
    | str s =>
      have hstrict : lx.position < lx1.position := by
        rcases hprog1 with he | hlt
        · exact absurd he (by simp)
        · exact hlt
      obtain ⟨hin2, hmono2, hbnd2, _⟩ := get_obj_spec lx1 (by omega)
      rcases hro2 : get_obj lx1 with ⟨tok2, lx2⟩
      rw [hro2] at hin2 hmono2 hbnd2
      have hin2' : lx2.input = lx1.input := hin2
      have hmono2' : lx1.position ≤ lx2.position := hmono2
      have hbnd2' : lx2.position ≤ lx1.input.length + 1 := hbnd2
      have hL2 : lx2.input.length = lx1.input.length := by rw [hin2']
      have hes1 : expect_string (Token.str s) = some s := rfl
      cases hes : expect_string tok2 with
      | none =>
        constructor
        · simp only [parse_bf_charF, hro, hes1, hro2, hes]
          exact fun hq => PRes.noConfusion hq
        · intro cm' lx' heq
          simp only [parse_bf_charF, hro, hes1, hro2, hes] at heq
          exact PRes.noConfusion heq
      | some dst_str =>
        obtain ⟨ihnoof, ihpok⟩ := ih
          (if dst_str.length ≤ 2 then
            if isValidCodePoint (str_to_int dst_str) then
              cm.map_one (str_to_int s) (str_to_int dst_str)
            else cm.map_one (str_to_int s) (bf_string_char dst_str)
          else cm.map_one (str_to_int s) (bf_string_char dst_str)) lx2
          (by omega) (by omega)
        constructor
        · simp only [parse_bf_charF, hro, hes1, hro2, hes]
          exact ihnoof
        · intro cm' lx' heq
          simp only [parse_bf_charF, hro, hes1, hro2, hes] at heq
          obtain ⟨k1, k2, k3⟩ := ihpok cm' lx' heq
          refine ⟨by rw [k1, hin2', hin1'], by omega, by omega⟩
    | hexString b =>
      have hstrict : lx.position < lx1.position := by
        rcases hprog1 with he | hlt
        · exact absurd he (by simp)
        · exact hlt
      obtain ⟨hin2, hmono2, hbnd2, _⟩ := get_obj_spec lx1 (by omega)
      rcases hro2 : get_obj lx1 with ⟨tok2, lx2⟩
      rw [hro2] at hin2 hmono2 hbnd2
      have hin2' : lx2.input = lx1.input := hin2
      have hmono2' : lx1.position ≤ lx2.position := hmono2
      have hbnd2' : lx2.position ≤ lx1.input.length + 1 := hbnd2
      have hL2 : lx2.input.length = lx1.input.length := by rw [hin2']
      have hes1 : expect_string (Token.hexString b) = some b := rfl
      cases hes : expect_string tok2 with
      | none =>
        constructor
        · simp only [parse_bf_charF, hro, hes1, hro2, hes]
          exact fun hq => PRes.noConfusion hq
        · intro cm' lx' heq
          simp only [parse_bf_charF, hro, hes1, hro2, hes] at heq
          exact PRes.noConfusion heq
      | some dst_str =>
        obtain ⟨ihnoof, ihpok⟩ := ih
          (if dst_str.length ≤ 2 then
            if isValidCodePoint (str_to_int dst_str) then
              cm.map_one (str_to_int b) (str_to_int dst_str)
            else cm.map_one (str_to_int b) (bf_string_char dst_str)
          else cm.map_one (str_to_int b) (bf_string_char dst_str)) lx2
          (by omega) (by omega)
        constructor
        · simp only [parse_bf_charF, hro, hes1, hro2, hes]
          exact ihnoof
        · intro cm' lx' heq
          simp only [parse_bf_charF, hro, hes1, hro2, hes] at heq
          obtain ⟨k1, k2, k3⟩ := ihpok cm' lx' heq
          refine ⟨by rw [k1, hin2', hin1'], by omega, by omega⟩


theorem parse_cid_rangeF_spec (f : Nat) : ∀ (cm : CMap) (lx : Lexer),
    lx.input.length + 2 - lx.position ≤ f → lx.position ≤ lx.input.length + 1 →
    (parse_cid_rangeF f cm lx ≠ .oof) ∧
    (∀ cm' lx', parse_cid_rangeF f cm lx = .pok (cm', lx') →
      lx'.input = lx.input ∧ lx.position ≤ lx'.position ∧
        lx'.position ≤ lx.input.length + 1) := by
  induction f with
  | zero => intro cm lx h hpos; omega
  | succ f ih =>
    intro cm lx h hpos
    obtain ⟨hin1, hmono1, hbnd1, hprog1⟩ := get_obj_spec lx hpos
    rcases hro : get_obj lx with ⟨tok, lx1⟩
    rw [hro] at hin1 hmono1 hbnd1 hprog1
    have hin1' : lx1.input = lx.input := hin1
    have hmono1' : lx.position ≤ lx1.position := hmono1
    have hbnd1' : lx1.position ≤ lx.input.length + 1 := hbnd1
    have hL1 : lx1.input.length = lx.input.length := by rw [hin1']
    cases tok with
    | eof =>
      constructor
      · simp only [parse_cid_rangeF, hro]
        exact fun hq => PRes.noConfusion hq
      · intro cm' lx' heq
        simp only [parse_cid_rangeF, hro, PRes.pok.injEq, Prod.mk.injEq] at heq
        obtain ⟨h1, h2⟩ := heq
        subst h1
        subst h2
        exact ⟨hin1', hmono1', hbnd1'⟩
    | command cmd =>
      by_cases hcmd : cmd = strCodes "endcidrange"
      · constructor
        · simp only [parse_cid_rangeF, hro, if_pos hcmd]
          exact fun hq => PRes.noConfusion hq
        · intro cm' lx' heq
          simp only [parse_cid_rangeF, hro, if_pos hcmd, PRes.pok.injEq,
            Prod.mk.injEq] at heq
          obtain ⟨h1, h2⟩ := heq
          subst h1
          subst h2
          exact ⟨hin1', hmono1', hbnd1'⟩
      · constructor
        · simp only [parse_cid_rangeF, hro, if_neg hcmd]
          exact fun hq => PRes.noConfusion hq
        · intro cm' lx' heq
          simp only [parse_cid_rangeF, hro, if_neg hcmd] at heq
          exact PRes.noConfusion heq
    | int i =>
      constructor
      · simp only [parse_cid_rangeF, hro, expect_string]
        exact fun hq => PRes.noConfusion hq
      · intro cm' lx' heq
        simp only [parse_cid_rangeF, hro, expect_string] at heq
        exact PRes.noConfusion heq
    | name n =>
      constructor
      · simp only [parse_cid_rangeF, hro, expect_string]
        exact fun hq => PRes.noConfusion hq
      · intro cm' lx' heq
        simp only [parse_cid_rangeF, hro, expect_string] at heq
        exact PRes.noConfusion heq
    | str s =>
      have hstrict : lx.position < lx1.position := by
        rcases hprog1 with he | hlt
        · exact absurd he (by simp)
        · exact hlt
      obtain ⟨hin2, hmono2, hbnd2, _⟩ := get_obj_spec lx1 (by omega)
      rcases hro2 : get_obj lx1 with ⟨tok2, lx2⟩
      rw [hro2] at hin2 hmono2 hbnd2
      have hin2' : lx2.input = lx1.input := hin2
      have hmono2' : lx1.position ≤ lx2.position := hmono2
      have hbnd2' : lx2.position ≤ lx1.input.length + 1 := hbnd2
      have hL2 : lx2.input.length = lx1.input.length := by rw [hin2']
      have hes1 : expect_string (Token.str s) = some s := rfl
      cases hes2 : expect_string tok2 with
      | none =>
        constructor
        · simp only [parse_cid_rangeF, hro, hes1, hro2, hes2]
          exact fun hq => PRes.noConfusion hq
        · intro cm' lx' heq
          simp only [parse_cid_rangeF, hro, hes1, hro2, hes2] at heq
          exact PRes.noConfusion heq
      | some high_str =>
        obtain ⟨hin3, hmono3, hbnd3, _⟩ := get_obj_spec lx2 (by omega)
        rcases hro3 : get_obj lx2 with ⟨tok3, lx3⟩
        rw [hro3] at hin3 hmono3 hbnd3
        have hin3' : lx3.input = lx2.input := hin3
        have hmono3' : lx2.position ≤ lx3.position := hmono3
        have hbnd3' : lx3.position ≤ lx2.input.length + 1 := hbnd3
        have hL3 : lx3.input.length = lx2.input.length := by rw [hin3']
        cases hei : expect_int tok3 with
        | none =>
          constructor
          · simp only [parse_cid_rangeF, hro, hes1, hro2, hes2, hro3, hei]
            exact fun hq => PRes.noConfusion hq
          · intro cm' lx' heq
            simp only [parse_cid_rangeF, hro, hes1, hro2, hes2, hro3, hei] at heq
            exact PRes.noConfusion heq
        | some dst =>
          cases hmr : cm.map_cid_range (str_to_int s) (str_to_int high_str)
              (i32AsU32 dst) with
          | none =>
            constructor
            · simp only [parse_cid_rangeF, hro, hes1, hro2, hes2, hro3, hei, hmr]
              exact fun hq => PRes.noConfusion hq
            · intro cm' lx' heq
              simp only [parse_cid_rangeF, hro, hes1, hro2, hes2, hro3, hei, hmr] at heq
              exact PRes.noConfusion heq
          | some cmap1 =>
            obtain ⟨ihnoof, ihpok⟩ := ih cmap1 lx3 (by omega) (by omega)
            constructor
            · simp only [parse_cid_rangeF, hro, hes1, hro2, hes2, hro3, hei, hmr]
              exact ihnoof
            · intro cm' lx' heq
              simp only [parse_cid_rangeF, hro, hes1, hro2, hes2, hro3, hei, hmr] at heq
              obtain ⟨k1, k2, k3⟩ := ihpok cm' lx' heq
              refine ⟨by rw [k1, hin3', hin2', hin1'], by omega, by omega⟩
    | hexString b =>
      have hstrict : lx.position < lx1.position := by
        rcases hprog1 with he | hlt
        · exact absurd he (by simp)
        · exact hlt
      obtain ⟨hin2, hmono2, hbnd2, _⟩ := get_obj_spec lx1 (by omega)
      rcases hro2 : get_obj lx1 with ⟨tok2, lx2⟩
      rw [hro2] at hin2 hmono2 hbnd2
      have hin2' : lx2.input = lx1.input := hin2
      have hmono2' : lx1.position ≤ lx2.position := hmono2
      have hbnd2' : lx2.position ≤ lx1.input.length + 1 := hbnd2
      have hL2 : lx2.input.length = lx1.input.length := by rw [hin2']
      have hes1 : expect_string (Token.hexString b) = some b := rfl
      cases hes2 : expect_string tok2 with
      | none =>
        constructor
        · simp only [parse_cid_rangeF, hro, hes1, hro2, hes2]
          exact fun hq => PRes.noConfusion hq
        · intro cm' lx' heq
          simp only [parse_cid_rangeF, hro, hes1, hro2, hes2] at heq
          exact PRes.noConfusion heq
      | some high_str =>
        obtain ⟨hin3, hmono3, hbnd3, _⟩ := get_obj_spec lx2 (by omega)
        rcases hro3 : get_obj lx2 with ⟨tok3, lx3⟩
        rw [hro3] at hin3 hmono3 hbnd3
        have hin3' : lx3.input = lx2.input := hin3
        have hmono3' : lx2.position ≤ lx3.position := hmono3
        have hbnd3' : lx3.position ≤ lx2.input.length + 1 := hbnd3
        have hL3 : lx3.input.length = lx2.input.length := by rw [hin3']
        cases hei : expect_int tok3 with
        | none =>
          constructor
          · simp only [parse_cid_rangeF, hro, hes1, hro2, hes2, hro3, hei]
            exact fun hq => PRes.noConfusion hq
          · intro cm' lx' heq
            simp only [parse_cid_rangeF, hro, hes1, hro2, hes2, hro3, hei] at heq
            exact PRes.noConfusion heq
        | some dst =>
          cases hmr : cm.map_cid_range (str_to_int b) (str_to_int high_str)
              (i32AsU32 dst) with
          | none =>
            constructor
            · simp only [parse_cid_rangeF, hro, hes1, hro2, hes2, hro3, hei, hmr]
              exact fun hq => PRes.noConfusion hq
            · intro cm' lx' heq
              simp only [parse_cid_rangeF, hro, hes1, hro2, hes2, hro3, hei, hmr] at heq
              exact PRes.noConfusion heq
          | some cmap1 =>
            obtain ⟨ihnoof, ihpok⟩ := ih cmap1 lx3 (by omega) (by omega)
            constructor
            · simp only [parse_cid_rangeF, hro, hes1, hro2, hes2, hro3, hei, hmr]
              exact ihnoof
            · intro cm' lx' heq
              simp only [parse_cid_rangeF, hro, hes1, hro2, hes2, hro3, hei, hmr] at heq
              obtain ⟨k1, k2, k3⟩ := ihpok cm' lx' heq
              refine ⟨by rw [k1, hin3', hin2', hin1'], by omega, by omega⟩


theorem parse_codespace_rangeF_spec (f : Nat) : ∀ (cm : CMap) (lx : Lexer),
    lx.input.length + 2 - lx.position ≤ f → lx.position ≤ lx.input.length + 1 →
    (parse_codespace_rangeF f cm lx ≠ .oof) ∧
    (∀ cm' lx', parse_codespace_rangeF f cm lx = .pok (cm', lx') →
      lx'.input = lx.input ∧ lx.position ≤ lx'.position ∧
        lx'.position ≤ lx.input.length + 1) := by
  induction f with
  | zero => intro cm lx h hpos; omega
  | succ f ih =>
    intro cm lx h hpos
    obtain ⟨hin1, hmono1, hbnd1, hprog1⟩ := get_obj_spec lx hpos
    rcases hro : get_obj lx with ⟨tok, lx1⟩
    rw [hro] at hin1 hmono1 hbnd1 hprog1
    have hin1' : lx1.input = lx.input := hin1
    have hmono1' : lx.position ≤ lx1.position := hmono1
    have hbnd1' : lx1.position ≤ lx.input.length + 1 := hbnd1
    have hL1 : lx1.input.length = lx.input.length := by rw [hin1']
    cases tok with
    | eof =>
      constructor
      · simp only [parse_codespace_rangeF, hro]
        exact fun hq => PRes.noConfusion hq
      · intro cm' lx' heq
        simp only [parse_codespace_rangeF, hro, PRes.pok.injEq, Prod.mk.injEq] at heq
        obtain ⟨h1, h2⟩ := heq
        subst h1
        subst h2
        exact ⟨hin1', hmono1', hbnd1'⟩
    | command cmd =>
      by_cases hcmd : cmd = strCodes "endcodespacerange"
      · constructor
        · simp only [parse_codespace_rangeF, hro, if_pos hcmd]
          exact fun hq => PRes.noConfusion hq
        · intro cm' lx' heq
          simp only [parse_codespace_rangeF, hro, if_pos hcmd, PRes.pok.injEq,
            Prod.mk.injEq] at heq
          obtain ⟨h1, h2⟩ := heq
          subst h1
          subst h2
          exact ⟨hin1', hmono1', hbnd1'⟩
      · constructor
        · simp only [parse_codespace_rangeF, hro, if_neg hcmd]
          exact fun hq => PRes.noConfusion hq
        · intro cm' lx' heq
          simp only [parse_codespace_rangeF, hro, if_neg hcmd] at heq
          exact PRes.noConfusion heq
    | int i =>
      constructor
      · simp only [parse_codespace_rangeF, hro, expect_string]
        exact fun hq => PRes.noConfusion hq
      · intro cm' lx' heq
        simp only [parse_codespace_rangeF, hro, expect_string] at heq
        exact PRes.noConfusion heq
    | name n =>
      constructor
      · simp only [parse_codespace_rangeF, hro, expect_string]
        exact fun hq => PRes.noConfusion hq
      · intro cm' lx' heq
        simp only [parse_codespace_rangeF, hro, expect_string] at heq
        exact PRes.noConfusion heq
    | str s =>
      have hstrict : lx.position < lx1.position := by
        rcases hprog1 with he | hlt
        · exact absurd he (by simp)
        · exact hlt
      have hes1 : expect_string (Token.str s) = some s := rfl
      by_cases hle : s.isEmpty = true
      · obtain ⟨ihnoof, ihpok⟩ := ih cm lx1 (by omega) (by omega)
        constructor
        · simp only [parse_codespace_rangeF, hro, hes1, hle, if_true]
          exact ihnoof
        · intro cm' lx' heq
          simp only [parse_codespace_rangeF, hro, hes1, hle, if_true] at heq
          obtain ⟨k1, k2, k3⟩ := ihpok cm' lx' heq
          refine ⟨by rw [k1, hin1'], by omega, by omega⟩
      · obtain ⟨hin2, hmono2, hbnd2, _⟩ := get_obj_spec lx1 (by omega)
        rcases hro2 : get_obj lx1 with ⟨tok2, lx2⟩
        rw [hro2] at hin2 hmono2 hbnd2
        have hin2' : lx2.input = lx1.input := hin2
        have hmono2' : lx1.position ≤ lx2.position := hmono2
        have hbnd2' : lx2.position ≤ lx1.input.length + 1 := hbnd2
        have hL2 : lx2.input.length = lx1.input.length := by rw [hin2']
        have hlef : s.isEmpty = false := by
          cases hq : s.isEmpty
          · rfl
          · exact absurd hq hle
        cases hes2 : expect_string tok2 with
        | none =>
          constructor
          · simp only [parse_codespace_rangeF, hro, hes1, hlef, Bool.false_eq_true,
              if_false, hro2, hes2]
            exact fun hq => PRes.noConfusion hq
          · intro cm' lx' heq
            simp only [parse_codespace_rangeF, hro, hes1, hlef, Bool.false_eq_true,
              if_false, hro2, hes2] at heq
            exact PRes.noConfusion heq
        | some high_str =>
          by_cases hhe : high_str.isEmpty = true
          · constructor
            · simp only [parse_codespace_rangeF, hro, hes1, hlef, Bool.false_eq_true,
                if_false, hro2, hes2, hhe, if_true]
              exact fun hq => PRes.noConfusion hq
            · intro cm' lx' heq
              simp only [parse_codespace_rangeF, hro, hes1, hlef, Bool.false_eq_true,
                if_false, hro2, hes2, hhe, if_true] at heq
              exact PRes.noConfusion heq
          · have hhef : high_str.isEmpty = false := by
              cases hq : high_str.isEmpty
              · rfl
              · exact absurd hq hhe
            obtain ⟨ihnoof, ihpok⟩ := ih
              (cm.add_codespace_range high_str.length (str_to_int s)
                (str_to_int high_str)) lx2 (by omega) (by omega)
            constructor
            · simp only [parse_codespace_rangeF, hro, hes1, hlef, Bool.false_eq_true,
                if_false, hro2, hes2, hhef]
              exact ihnoof
            · intro cm' lx' heq
              simp only [parse_codespace_rangeF, hro, hes1, hlef, Bool.false_eq_true,
                if_false, hro2, hes2, hhef] at heq
              obtain ⟨k1, k2, k3⟩ := ihpok cm' lx' heq
              refine ⟨by rw [k1, hin2', hin1'], by omega, by omega⟩
    | hexString b =>
      have hstrict : lx.position < lx1.position := by
        rcases hprog1 with he | hlt
        · exact absurd he (by simp)
        · exact hlt
      have hes1 : expect_string (Token.hexString b) = some b := rfl
      by_cases hle : b.isEmpty = true
      · obtain ⟨ihnoof, ihpok⟩ := ih cm lx1 (by omega) (by omega)
        constructor
        · simp only [parse_codespace_rangeF, hro, hes1, hle, if_true]
          exact ihnoof
        · intro cm' lx' heq
          simp only [parse_codespace_rangeF, hro, hes1, hle, if_true] at heq
          obtain ⟨k1, k2, k3⟩ := ihpok cm' lx' heq
          refine ⟨by rw [k1, hin1'], by omega, by omega⟩
      · obtain ⟨hin2, hmono2, hbnd2, _⟩ := get_obj_spec lx1 (by omega)
        rcases hro2 : get_obj lx1 with ⟨tok2, lx2⟩
        rw [hro2] at hin2 hmono2 hbnd2
        have hin2' : lx2.input = lx1.input := hin2
        have hmono2' : lx1.position ≤ lx2.position := hmono2
        have hbnd2' : lx2.position ≤ lx1.input.length + 1 := hbnd2
        have hL2 : lx2.input.length = lx1.input.length := by rw [hin2']
        have hlef : b.isEmpty = false := by
          cases hq : b.isEmpty
          · rfl
          · exact absurd hq hle
        cases hes2 : expect_string tok2 with
        | none =>
          constructor
          · simp only [parse_codespace_rangeF, hro, hes1, hlef, Bool.false_eq_true,
              if_false, hro2, hes2]
            exact fun hq => PRes.noConfusion hq
          · intro cm' lx' heq
            simp only [parse_codespace_rangeF, hro, hes1, hlef, Bool.false_eq_true,
              if_false, hro2, hes2] at heq
            exact PRes.noConfusion heq
        | some high_str =>
          by_cases hhe : high_str.isEmpty = true
          · constructor
            · simp only [parse_codespace_rangeF, hro, hes1, hlef, Bool.false_eq_true,
                if_false, hro2, hes2, hhe, if_true]
              exact fun hq => PRes.noConfusion hq
            · intro cm' lx' heq
              simp only [parse_codespace_rangeF, hro, hes1, hlef, Bool.false_eq_true,
                if_false, hro2, hes2, hhe, if_true] at heq
              exact PRes.noConfusion heq
          · have hhef : high_str.isEmpty = false := by
              cases hq : high_str.isEmpty
              · rfl
              · exact absurd hq hhe
            obtain ⟨ihnoof, ihpok⟩ := ih
              (cm.add_codespace_range high_str.length (str_to_int b)
                (str_to_int high_str)) lx2 (by omega) (by omega)
            constructor
            · simp only [parse_codespace_rangeF, hro, hes1, hlef, Bool.false_eq_true,
                if_false, hro2, hes2, hhef]
              exact ihnoof
            · intro cm' lx' heq
              simp only [parse_codespace_rangeF, hro, hes1, hlef, Bool.false_eq_true,
                if_false, hro2, hes2, hhef] at heq
              obtain ⟨k1, k2, k3⟩ := ihpok cm' lx' heq
              refine ⟨by rw [k1, hin2', hin1'], by omega, by omega⟩

theorem bfArrayF_spec (f : Nat) : ∀ (lx : Lexer) (arr : List Nat),
    lx.input.length + 2 - lx.position ≤ f → lx.position ≤ lx.input.length + 1 →
    (bfArrayF f lx arr ≠ .oof) ∧
    (∀ arr' lx', bfArrayF f lx arr = .pok (arr', lx') →
      lx'.input = lx.input ∧ lx.position ≤ lx'.position ∧
        lx'.position ≤ lx.input.length + 1) := by
  induction f with
  | zero => intro lx arr h hpos; omega
  | succ f ih =>
    intro lx arr h hpos
    obtain ⟨hin1, hmono1, hbnd1, hprog1⟩ := get_obj_spec lx hpos
    rcases hro : get_obj lx with ⟨tok, lx1⟩
    rw [hro] at hin1 hmono1 hbnd1 hprog1
    have hin1' : lx1.input = lx.input := hin1
    have hmono1' : lx.position ≤ lx1.position := hmono1
    have hbnd1' : lx1.position ≤ lx.input.length + 1 := hbnd1
    have hL1 : lx1.input.length = lx.input.length := by rw [hin1']
    cases tok with
    | eof =>
      constructor
      · simp only [bfArrayF, hro]
        exact fun hq => PRes.noConfusion hq
      · intro arr' lx' heq
        simp only [bfArrayF, hro, PRes.pok.injEq, Prod.mk.injEq] at heq
        obtain ⟨h1, h2⟩ := heq
        subst h1
        subst h2
        exact ⟨hin1', hmono1', hbnd1'⟩
    | command cmd =>
      have hstrict : lx.position < lx1.position := by
        rcases hprog1 with he | hlt
        · exact absurd he (by simp)
        · exact hlt
      by_cases hcmd : cmd = strCodes "]"
      · constructor
        · simp only [bfArrayF, hro, if_pos hcmd]
          exact fun hq => PRes.noConfusion hq
        · intro arr' lx' heq
          simp only [bfArrayF, hro, if_pos hcmd, PRes.pok.injEq, Prod.mk.injEq] at heq
          obtain ⟨h1, h2⟩ := heq
          subst h1
          subst h2
          exact ⟨hin1', hmono1', hbnd1'⟩
      · obtain ⟨ihnoof, ihpok⟩ := ih lx1 arr (by omega) (by omega)
        constructor
        · simp only [bfArrayF, hro, if_neg hcmd]
          exact ihnoof
        · intro arr' lx' heq
          simp only [bfArrayF, hro, if_neg hcmd] at heq
          obtain ⟨k1, k2, k3⟩ := ihpok arr' lx' heq
          refine ⟨by rw [k1, hin1'], by omega, by omega⟩
    | int v =>
      have hstrict : lx.position < lx1.position := by
        rcases hprog1 with he | hlt
        · exact absurd he (by simp)
        · exact hlt
      obtain ⟨ihnoof, ihpok⟩ := ih lx1 (arr ++ [i32AsU32 v]) (by omega) (by omega)
      constructor
      · simp only [bfArrayF, hro]
        exact ihnoof
      · intro arr' lx' heq
        simp only [bfArrayF, hro] at heq
        obtain ⟨k1, k2, k3⟩ := ihpok arr' lx' heq
        refine ⟨by rw [k1, hin1'], by omega, by omega⟩
    | str s =>
      have hstrict : lx.position < lx1.position := by
        rcases hprog1 with he | hlt
        · exact absurd he (by simp)
        · exact hlt
      have hes1 : expect_string (Token.str s) = some s := rfl
      obtain ⟨ihnoof, ihpok⟩ := ih lx1 (arr ++ [bf_string_char s]) (by omega) (by omega)
      constructor
      · simp only [bfArrayF, hro, hes1]
        exact ihnoof
      · intro arr' lx' heq
        simp only [bfArrayF, hro, hes1] at heq
        obtain ⟨k1, k2, k3⟩ := ihpok arr' lx' heq
        refine ⟨by rw [k1, hin1'], by omega, by omega⟩
    | hexString b =>
      have hstrict : lx.position < lx1.position := by
        rcases hprog1 with he | hlt
        · exact absurd he (by simp)
        · exact hlt
      have hes1 : expect_string (Token.hexString b) = some b := rfl
      obtain ⟨ihnoof, ihpok⟩ := ih lx1 (arr ++ [bf_string_char b]) (by omega) (by omega)
      constructor
      · simp only [bfArrayF, hro, hes1]
        exact ihnoof
      · intro arr' lx' heq
        simp only [bfArrayF, hro, hes1] at heq
        obtain ⟨k1, k2, k3⟩ := ihpok arr' lx' heq
        refine ⟨by rw [k1, hin1'], by omega, by omega⟩
    | name n =>
      have hstrict : lx.position < lx1.position := by
        rcases hprog1 with he | hlt
        · exact absurd he (by simp)
        · exact hlt
      have hes1 : expect_string (Token.name n) = (none : Option (List Nat)) := rfl
      obtain ⟨ihnoof, ihpok⟩ := ih lx1 arr (by omega) (by omega)
      constructor
      · simp only [bfArrayF, hro, hes1]
        exact ihnoof
      · intro arr' lx' heq
        simp only [bfArrayF, hro, hes1] at heq
        obtain ⟨k1, k2, k3⟩ := ihpok arr' lx' heq
        refine ⟨by rw [k1, hin1'], by omega, by omega⟩


set_option maxHeartbeats 2000000 in
theorem parse_bf_rangeF_spec (f : Nat) : ∀ (cm : CMap) (lx : Lexer),
    lx.input.length + 2 - lx.position ≤ f → lx.position ≤ lx.input.length + 1 →
    (parse_bf_rangeF f cm lx ≠ .oof) ∧
    (∀ cm' lx', parse_bf_rangeF f cm lx = .pok (cm', lx') →
      lx'.input = lx.input ∧ lx.position ≤ lx'.position ∧
        lx'.position ≤ lx.input.length + 1) := by
  induction f with
  | zero => intro cm lx h hpos; omega
  | succ f ih =>
    intro cm lx h hpos
    obtain ⟨hin1, hmono1, hbnd1, hprog1⟩ := get_obj_spec lx hpos
    rcases hro : get_obj lx with ⟨tok, lx1⟩
    rw [hro] at hin1 hmono1 hbnd1 hprog1
    have hin1' : lx1.input = lx.input := hin1
    have hmono1' : lx.position ≤ lx1.position := hmono1
    have hbnd1' : lx1.position ≤ lx.input.length + 1 := hbnd1
    have hL1 : lx1.input.length = lx.input.length := by rw [hin1']
    cases tok with
    | eof =>
      have hres : parse_bf_rangeF (f + 1) cm lx = PRes.pok (cm, lx1) := by
        simp only [parse_bf_rangeF, hro]
      refine ⟨by rw [hres]; exact fun hq => PRes.noConfusion hq, ?_⟩
      intro cm' lx' heq
      rw [hres] at heq
      simp only [PRes.pok.injEq, Prod.mk.injEq] at heq
      obtain ⟨h1, h2⟩ := heq
      subst h1
      subst h2
      exact ⟨hin1', hmono1', hbnd1'⟩
    | command cmd =>
      by_cases hcmd : cmd = strCodes "endbfrange"
      · have hres : parse_bf_rangeF (f + 1) cm lx = PRes.pok (cm, lx1) := by
          simp only [parse_bf_rangeF, hro, if_pos hcmd]
        refine ⟨by rw [hres]; exact fun hq => PRes.noConfusion hq, ?_⟩
        intro cm' lx' heq
        rw [hres] at heq
        simp only [PRes.pok.injEq, Prod.mk.injEq] at heq
        obtain ⟨h1, h2⟩ := heq
        subst h1
        subst h2
        exact ⟨hin1', hmono1', hbnd1'⟩
      · have hres : parse_bf_rangeF (f + 1) cm lx = PRes.perr := by
          simp only [parse_bf_rangeF, hro, if_neg hcmd]
        refine ⟨by rw [hres]; exact fun hq => PRes.noConfusion hq, ?_⟩
        intro cm' lx' heq
        rw [hres] at heq
        exact PRes.noConfusion heq
    | int i =>
      have hres : parse_bf_rangeF (f + 1) cm lx = PRes.perr := by
        simp only [parse_bf_rangeF, hro, expect_string]
      refine ⟨by rw [hres]; exact fun hq => PRes.noConfusion hq, ?_⟩
      intro cm' lx' heq
      rw [hres] at heq
      exact PRes.noConfusion heq
    | name n =>
      have hres : parse_bf_rangeF (f + 1) cm lx = PRes.perr := by
        simp only [parse_bf_rangeF, hro, expect_string]
      refine ⟨by rw [hres]; exact fun hq => PRes.noConfusion hq, ?_⟩
      intro cm' lx' heq
      rw [hres] at heq
      exact PRes.noConfusion heq
    | str s =>
      have hstrict : lx.position < lx1.position := by
        rcases hprog1 with he | hlt
        · exact absurd he (by simp)
        · exact hlt
      obtain ⟨hin2, hmono2, hbnd2, _⟩ := get_obj_spec lx1 (by omega)
      rcases hro2 : get_obj lx1 with ⟨tok2, lx2⟩
      rw [hro2] at hin2 hmono2 hbnd2
      have hin2' : lx2.input = lx1.input := hin2
      have hmono2' : lx1.position ≤ lx2.position := hmono2
      have hbnd2' : lx2.position ≤ lx1.input.length + 1 := hbnd2
      have hL2 : lx2.input.length = lx1.input.length := by rw [hin2']
      have hes1 : expect_string (Token.str s) = some s := rfl
      cases hes2 : expect_string tok2 with
      | none =>
        have hres : parse_bf_rangeF (f + 1) cm lx = PRes.perr := by
          simp only [parse_bf_rangeF, hro, hes1, hro2, hes2]
        refine ⟨by rw [hres]; exact fun hq => PRes.noConfusion hq, ?_⟩
        intro cm' lx' heq
        rw [hres] at heq
        exact PRes.noConfusion heq
      | some high_str =>
        obtain ⟨hin3, hmono3, hbnd3, _⟩ := get_obj_spec lx2 (by omega)
        rcases hro3 : get_obj lx2 with ⟨tok3, lx3⟩
        rw [hro3] at hin3 hmono3 hbnd3
        have hin3' : lx3.input = lx2.input := hin3
        have hmono3' : lx2.position ≤ lx3.position := hmono3
        have hbnd3' : lx3.position ≤ lx2.input.length + 1 := hbnd3
        have hL3 : lx3.input.length = lx2.input.length := by rw [hin3']
        cases tok3 with
        | int dst_int =>
          cases hmr : cm.map_bf_range (str_to_int s) (str_to_int high_str)
              [i32AsU8 dst_int] with
          | none =>
            have hres : parse_bf_rangeF (f + 1) cm lx = PRes.perr := by
              simp only [parse_bf_rangeF, hro, hes1, hro2, hes2, hro3, hmr]
            refine ⟨by rw [hres]; exact fun hq => PRes.noConfusion hq, ?_⟩
            intro cm' lx' heq
            rw [hres] at heq
            exact PRes.noConfusion heq
          | some cmap1 =>
            obtain ⟨ihnoof, ihpok⟩ := ih cmap1 lx3 (by omega) (by omega)
            have hres : parse_bf_rangeF (f + 1) cm lx = parse_bf_rangeF f cmap1 lx3 := by
              simp only [parse_bf_rangeF, hro, hes1, hro2, hes2, hro3, hmr]
            refine ⟨by rw [hres]; exact ihnoof, ?_⟩
            intro cm' lx' heq
            rw [hres] at heq
            obtain ⟨k1, k2, k3⟩ := ihpok cm' lx' heq
            refine ⟨by rw [k1, hin3', hin2', hin1'], by omega, by omega⟩
        | str s3 =>
          have hes3 : expect_string (Token.str s3) = some s3 := rfl
          cases hmr : cm.map_bf_range (str_to_int s) (str_to_int high_str) s3 with
          | none =>
            have hres : parse_bf_rangeF (f + 1) cm lx = PRes.perr := by
              simp only [parse_bf_rangeF, hro, hes1, hro2, hes2, hro3, hes3, hmr]
            refine ⟨by rw [hres]; exact fun hq => PRes.noConfusion hq, ?_⟩
            intro cm' lx' heq
            rw [hres] at heq
            exact PRes.noConfusion heq
          | some cmap1 =>
            obtain ⟨ihnoof, ihpok⟩ := ih cmap1 lx3 (by omega) (by omega)
            have hres : parse_bf_rangeF (f + 1) cm lx = parse_bf_rangeF f cmap1 lx3 := by
              simp only [parse_bf_rangeF, hro, hes1, hro2, hes2, hro3, hes3, hmr]
            refine ⟨by rw [hres]; exact ihnoof, ?_⟩
            intro cm' lx' heq
            rw [hres] at heq
            obtain ⟨k1, k2, k3⟩ := ihpok cm' lx' heq
            refine ⟨by rw [k1, hin3', hin2', hin1'], by omega, by omega⟩
        | hexString b3 =>
          have hes3 : expect_string (Token.hexString b3) = some b3 := rfl
          cases hmr : cm.map_bf_range (str_to_int s) (str_to_int high_str) b3 with
          | none =>
            have hres : parse_bf_rangeF (f + 1) cm lx = PRes.perr := by
              simp only [parse_bf_rangeF, hro, hes1, hro2, hes2, hro3, hes3, hmr]
            refine ⟨by rw [hres]; exact fun hq => PRes.noConfusion hq, ?_⟩
            intro cm' lx' heq
            rw [hres] at heq
            exact PRes.noConfusion heq
          | some cmap1 =>
            obtain ⟨ihnoof, ihpok⟩ := ih cmap1 lx3 (by omega) (by omega)
            have hres : parse_bf_rangeF (f + 1) cm lx = parse_bf_rangeF f cmap1 lx3 := by
              simp only [parse_bf_rangeF, hro, hes1, hro2, hes2, hro3, hes3, hmr]
            refine ⟨by rw [hres]; exact ihnoof, ?_⟩
            intro cm' lx' heq
            rw [hres] at heq
            obtain ⟨k1, k2, k3⟩ := ihpok cm' lx' heq
            refine ⟨by rw [k1, hin3', hin2', hin1'], by omega, by omega⟩
        | eof =>
          have hes3 : expect_string Token.eof = (none : Option (List Nat)) := rfl
          have hres : parse_bf_rangeF (f + 1) cm lx = PRes.perr := by
            simp only [parse_bf_rangeF, hro, hes1, hro2, hes2, hro3, hes3]
          refine ⟨by rw [hres]; exact fun hq => PRes.noConfusion hq, ?_⟩
          intro cm' lx' heq
          rw [hres] at heq
          exact PRes.noConfusion heq
        | name n3 =>
          have hes3 : expect_string (Token.name n3) = (none : Option (List Nat)) := rfl
          have hres : parse_bf_rangeF (f + 1) cm lx = PRes.perr := by
            simp only [parse_bf_rangeF, hro, hes1, hro2, hes2, hro3, hes3]
          refine ⟨by rw [hres]; exact fun hq => PRes.noConfusion hq, ?_⟩
          intro cm' lx' heq
          rw [hres] at heq
          exact PRes.noConfusion heq
        | command cmd3 =>
          have hes3 : expect_string (Token.command cmd3) = (none : Option (List Nat)) :=
            rfl
          by_cases hbr : cmd3 = strCodes "["
          · obtain ⟨hanoof, hapok⟩ := bfArrayF_spec lx3.fuel lx3 []
              (by show lx3.input.length + 2 - lx3.position ≤ lx3.input.length + 2; omega)
              (by omega)
            cases harr : bfArrayF lx3.fuel lx3 [] with
            | oof => exact absurd harr hanoof
            | perr =>
              have hres : parse_bf_rangeF (f + 1) cm lx = PRes.perr := by
                simp only [parse_bf_rangeF, hro, hes1, hro2, hes2, hro3, hes3,
                  if_pos hbr, harr]
              refine ⟨by rw [hres]; exact fun hq => PRes.noConfusion hq, ?_⟩
              intro cm' lx' heq
              rw [hres] at heq
              exact PRes.noConfusion heq
            | pok p =>
              rcases p with ⟨arr1, lx4⟩
              obtain ⟨j1, j2, j3⟩ := hapok arr1 lx4 harr
              have hL4 : lx4.input.length = lx3.input.length := by rw [j1]
              cases hmra : cm.map_bf_range_to_array (str_to_int s)
                  (str_to_int high_str) arr1 with
              | none =>
                have hres : parse_bf_rangeF (f + 1) cm lx = PRes.perr := by
                  simp only [parse_bf_rangeF, hro, hes1, hro2, hes2, hro3, hes3,
                    if_pos hbr, harr, hmra]
                refine ⟨by rw [hres]; exact fun hq => PRes.noConfusion hq, ?_⟩
                intro cm' lx' heq
                rw [hres] at heq
                exact PRes.noConfusion heq
              | some cmap1 =>
                obtain ⟨ihnoof, ihpok⟩ := ih cmap1 lx4 (by omega) (by omega)
                have hres : parse_bf_rangeF (f + 1) cm lx =
                    parse_bf_rangeF f cmap1 lx4 := by
                  simp only [parse_bf_rangeF, hro, hes1, hro2, hes2, hro3, hes3,
                    if_pos hbr, harr, hmra]
                refine ⟨by rw [hres]; exact ihnoof, ?_⟩
                intro cm' lx' heq
                rw [hres] at heq
                obtain ⟨k1, k2, k3⟩ := ihpok cm' lx' heq
                refine ⟨by rw [k1, j1, hin3', hin2', hin1'], by omega, by omega⟩
          · have hres : parse_bf_rangeF (f + 1) cm lx = PRes.perr := by
              simp only [parse_bf_rangeF, hro, hes1, hro2, hes2, hro3, hes3, if_neg hbr]
            refine ⟨by rw [hres]; exact fun hq => PRes.noConfusion hq, ?_⟩
            intro cm' lx' heq
            rw [hres] at heq
            exact PRes.noConfusion heq
    | hexString b =>
      have hstrict : lx.position < lx1.position := by
        rcases hprog1 with he | hlt
        · exact absurd he (by simp)
        · exact hlt
      obtain ⟨hin2, hmono2, hbnd2, _⟩ := get_obj_spec lx1 (by omega)
      rcases hro2 : get_obj lx1 with ⟨tok2, lx2⟩
      rw [hro2] at hin2 hmono2 hbnd2
      have hin2' : lx2.input = lx1.input := hin2
      have hmono2' : lx1.position ≤ lx2.position := hmono2
      have hbnd2' : lx2.position ≤ lx1.input.length + 1 := hbnd2
      have hL2 : lx2.input.length = lx1.input.length := by rw [hin2']
      have hes1 : expect_string (Token.hexString b) = some b := rfl
      cases hes2 : expect_string tok2 with
      | none =>
        have hres : parse_bf_rangeF (f + 1) cm lx = PRes.perr := by
          simp only [parse_bf_rangeF, hro, hes1, hro2, hes2]
        refine ⟨by rw [hres]; exact fun hq => PRes.noConfusion hq, ?_⟩
        intro cm' lx' heq
        rw [hres] at heq
        exact PRes.noConfusion heq
      | some high_str =>
        obtain ⟨hin3, hmono3, hbnd3, _⟩ := get_obj_spec lx2 (by omega)
        rcases hro3 : get_obj lx2 with ⟨tok3, lx3⟩
        rw [hro3] at hin3 hmono3 hbnd3
        have hin3' : lx3.input = lx2.input := hin3
        have hmono3' : lx2.position ≤ lx3.position := hmono3
        have hbnd3' : lx3.position ≤ lx2.input.length + 1 := hbnd3
        have hL3 : lx3.input.length = lx2.input.length := by rw [hin3']
        cases tok3 with
        | int dst_int =>
          cases hmr : cm.map_bf_range (str_to_int b) (str_to_int high_str)
              [i32AsU8 dst_int] with
          | none =>
            have hres : parse_bf_rangeF (f + 1) cm lx = PRes.perr := by
              simp only [parse_bf_rangeF, hro, hes1, hro2, hes2, hro3, hmr]
            refine ⟨by rw [hres]; exact fun hq => PRes.noConfusion hq, ?_⟩
            intro cm' lx' heq
            rw [hres] at heq
            exact PRes.noConfusion heq
          | some cmap1 =>
            obtain ⟨ihnoof, ihpok⟩ := ih cmap1 lx3 (by omega) (by omega)
            have hres : parse_bf_rangeF (f + 1) cm lx = parse_bf_rangeF f cmap1 lx3 := by
              simp only [parse_bf_rangeF, hro, hes1, hro2, hes2, hro3, hmr]
            refine ⟨by rw [hres]; exact ihnoof, ?_⟩
            intro cm' lx' heq
            rw [hres] at heq
            obtain ⟨k1, k2, k3⟩ := ihpok cm' lx' heq
            refine ⟨by rw [k1, hin3', hin2', hin1'], by omega, by omega⟩
        | str s3 =>
          have hes3 : expect_string (Token.str s3) = some s3 := rfl
          cases hmr : cm.map_bf_range (str_to_int b) (str_to_int high_str) s3 with
          | none =>
            have hres : parse_bf_rangeF (f + 1) cm lx = PRes.perr := by
              simp only [parse_bf_rangeF, hro, hes1, hro2, hes2, hro3, hes3, hmr]
            refine ⟨by rw [hres]; exact fun hq => PRes.noConfusion hq, ?_⟩
            intro cm' lx' heq
            rw [hres] at heq
            exact PRes.noConfusion heq
          | some cmap1 =>
            obtain ⟨ihnoof, ihpok⟩ := ih cmap1 lx3 (by omega) (by omega)
            have hres : parse_bf_rangeF (f + 1) cm lx = parse_bf_rangeF f cmap1 lx3 := by
              simp only [parse_bf_rangeF, hro, hes1, hro2, hes2, hro3, hes3, hmr]
            refine ⟨by rw [hres]; exact ihnoof, ?_⟩
            intro cm' lx' heq
            rw [hres] at heq
            obtain ⟨k1, k2, k3⟩ := ihpok cm' lx' heq
            refine ⟨by rw [k1, hin3', hin2', hin1'], by omega, by omega⟩
        | hexString b3 =>
          have hes3 : expect_string (Token.hexString b3) = some b3 := rfl
          cases hmr : cm.map_bf_range (str_to_int b) (str_to_int high_str) b3 with
          | none =>
            have hres : parse_bf_rangeF (f + 1) cm lx = PRes.perr := by
              simp only [parse_bf_rangeF, hro, hes1, hro2, hes2, hro3, hes3, hmr]
            refine ⟨by rw [hres]; exact fun hq => PRes.noConfusion hq, ?_⟩
            intro cm' lx' heq
            rw [hres] at heq
            exact PRes.noConfusion heq
          | some cmap1 =>
            obtain ⟨ihnoof, ihpok⟩ := ih cmap1 lx3 (by omega) (by omega)
            have hres : parse_bf_rangeF (f + 1) cm lx = parse_bf_rangeF f cmap1 lx3 := by
              simp only [parse_bf_rangeF, hro, hes1, hro2, hes2, hro3, hes3, hmr]
            refine ⟨by rw [hres]; exact ihnoof, ?_⟩
            intro cm' lx' heq
            rw [hres] at heq
            obtain ⟨k1, k2, k3⟩ := ihpok cm' lx' heq
            refine ⟨by rw [k1, hin3', hin2', hin1'], by omega, by omega⟩
        | eof =>
          have hes3 : expect_string Token.eof = (none : Option (List Nat)) := rfl
          have hres : parse_bf_rangeF (f + 1) cm lx = PRes.perr := by
            simp only [parse_bf_rangeF, hro, hes1, hro2, hes2, hro3, hes3]
          refine ⟨by rw [hres]; exact fun hq => PRes.noConfusion hq, ?_⟩
          intro cm' lx' heq
          rw [hres] at heq
          exact PRes.noConfusion heq
        | name n3 =>
          have hes3 : expect_string (Token.name n3) = (none : Option (List Nat)) := rfl
          have hres : parse_bf_rangeF (f + 1) cm lx = PRes.perr := by
            simp only [parse_bf_rangeF, hro, hes1, hro2, hes2, hro3, hes3]
          refine ⟨by rw [hres]; exact fun hq => PRes.noConfusion hq, ?_⟩
          intro cm' lx' heq
          rw [hres] at heq
          exact PRes.noConfusion heq
        | command cmd3 =>
          have hes3 : expect_string (Token.command cmd3) = (none : Option (List Nat)) :=
            rfl
          by_cases hbr : cmd3 = strCodes "["
          · obtain ⟨hanoof, hapok⟩ := bfArrayF_spec lx3.fuel lx3 []
              (by show lx3.input.length + 2 - lx3.position ≤ lx3.input.length + 2; omega)
              (by omega)
            cases harr : bfArrayF lx3.fuel lx3 [] with
            | oof => exact absurd harr hanoof
            | perr =>
              have hres : parse_bf_rangeF (f + 1) cm lx = PRes.perr := by
                simp only [parse_bf_rangeF, hro, hes1, hro2, hes2, hro3, hes3,
                  if_pos hbr, harr]
              refine ⟨by rw [hres]; exact fun hq => PRes.noConfusion hq, ?_⟩
              intro cm' lx' heq
              rw [hres] at heq
              exact PRes.noConfusion heq
            | pok p =>
              rcases p with ⟨arr1, lx4⟩
              obtain ⟨j1, j2, j3⟩ := hapok arr1 lx4 harr
              have hL4 : lx4.input.length = lx3.input.length := by rw [j1]
              cases hmra : cm.map_bf_range_to_array (str_to_int b)
                  (str_to_int high_str) arr1 with
              | none =>
                have hres : parse_bf_rangeF (f + 1) cm lx = PRes.perr := by
                  simp only [parse_bf_rangeF, hro, hes1, hro2, hes2, hro3, hes3,
                    if_pos hbr, harr, hmra]
                refine ⟨by rw [hres]; exact fun hq => PRes.noConfusion hq, ?_⟩
                intro cm' lx' heq
                rw [hres] at heq
                exact PRes.noConfusion heq
              | some cmap1 =>
                obtain ⟨ihnoof, ihpok⟩ := ih cmap1 lx4 (by omega) (by omega)
                have hres : parse_bf_rangeF (f + 1) cm lx =
                    parse_bf_rangeF f cmap1 lx4 := by
                  simp only [parse_bf_rangeF, hro, hes1, hro2, hes2, hro3, hes3,
                    if_pos hbr, harr, hmra]
                refine ⟨by rw [hres]; exact ihnoof, ?_⟩
                intro cm' lx' heq
                rw [hres] at heq
                obtain ⟨k1, k2, k3⟩ := ihpok cm' lx' heq
                refine ⟨by rw [k1, j1, hin3', hin2', hin1'], by omega, by omega⟩
          · have hres : parse_bf_rangeF (f + 1) cm lx = PRes.perr := by
              simp only [parse_bf_rangeF, hro, hes1, hro2, hes2, hro3, hes3, if_neg hbr]
            refine ⟨by rw [hres]; exact fun hq => PRes.noConfusion hq, ?_⟩
            intro cm' lx' heq
            rw [hres] at heq
            exact PRes.noConfusion heq

theorem parse_wmode_snd (cm : CMap) (lx : Lexer) :
    (parse_wmode cm lx).2 = (get_obj lx).2 := by
  cases h : expect_int (get_obj lx).1 <;> simp [parse_wmode, h]

theorem parse_cmap_name_snd (cm : CMap) (lx : Lexer) :
    (parse_cmap_name cm lx).2 = (get_obj lx).2 := by
  cases h : (get_obj lx).1 <;> simp [parse_cmap_name, h]

theorem parse_cmapF_spec (f : Nat) : ∀ (cm : CMap) (lx : Lexer),
    lx.input.length + 2 - lx.position ≤ f → lx.position ≤ lx.input.length + 1 →
    parse_cmapF f cm lx ≠ .oof := by
  induction f with
  | zero => intro cm lx h hpos; omega
  | succ f ih =>
    intro cm lx h hpos
    obtain ⟨hin1, hmono1, hbnd1, hprog1⟩ := get_obj_spec lx hpos
    rcases hro : get_obj lx with ⟨tok, lx1⟩
    rw [hro] at hin1 hmono1 hbnd1 hprog1
    have hin1' : lx1.input = lx.input := hin1
    have hmono1' : lx.position ≤ lx1.position := hmono1
    have hbnd1' : lx1.position ≤ lx.input.length + 1 := hbnd1
    have hL1 : lx1.input.length = lx.input.length := by rw [hin1']
    cases tok with
    | eof =>
      have hres : parse_cmapF (f + 1) cm lx = PRes.pok cm := by
        simp only [parse_cmapF, hro]
      rw [hres]
      exact fun hq => PRes.noConfusion hq
    | int i =>
      have hstrict : lx.position < lx1.position := by
        rcases hprog1 with he | hlt
        · exact absurd he (by simp)
        · exact hlt
      have hres : parse_cmapF (f + 1) cm lx = parse_cmapF f cm lx1 := by
        simp only [parse_cmapF, hro]
      rw [hres]
      exact ih cm lx1 (by omega) (by omega)
    | str s1 =>
      have hstrict : lx.position < lx1.position := by
        rcases hprog1 with he | hlt
        · exact absurd he (by simp)
        · exact hlt
      have hres : parse_cmapF (f + 1) cm lx = parse_cmapF f cm lx1 := by
        simp only [parse_cmapF, hro]
      rw [hres]
      exact ih cm lx1 (by omega) (by omega)
    | hexString b1 =>
      have hstrict : lx.position < lx1.position := by
        rcases hprog1 with he | hlt
        · exact absurd he (by simp)
        · exact hlt
      have hres : parse_cmapF (f + 1) cm lx = parse_cmapF f cm lx1 := by
        simp only [parse_cmapF, hro]
      rw [hres]
      exact ih cm lx1 (by omega) (by omega)
    | name n =>
      have hstrict : lx.position < lx1.position := by
        rcases hprog1 with he | hlt
        · exact absurd he (by simp)
        · exact hlt
      obtain ⟨hw1, hw2, hw3, _⟩ := get_obj_spec lx1 (by omega)
      rcases hro2 : get_obj lx1 with ⟨tok2, lx2⟩
      rw [hro2] at hw1 hw2 hw3
      have hw1' : lx2.input = lx1.input := hw1
      have hw2' : lx1.position ≤ lx2.position := hw2
      have hw3' : lx2.position ≤ lx1.input.length + 1 := hw3
      have hL2 : lx2.input.length = lx.input.length := by rw [hw1', hin1']
      by_cases hn1 : n = strCodes "WMode"
      · have hsnd : (parse_wmode cm lx1).2 = lx2 := by
          rw [parse_wmode_snd, hro2]
        have hres : parse_cmapF (f + 1) cm lx =
            parse_cmapF f (parse_wmode cm lx1).1 (parse_wmode cm lx1).2 := by
          simp only [parse_cmapF, hro, if_pos hn1]
        rw [hres, hsnd]
        exact ih (parse_wmode cm lx1).1 lx2 (by omega) (by omega)
      · by_cases hn2 : n = strCodes "CMapName"
        · have hsnd : (parse_cmap_name cm lx1).2 = lx2 := by
            rw [parse_cmap_name_snd, hro2]
          have hres : parse_cmapF (f + 1) cm lx =
              parse_cmapF f (parse_cmap_name cm lx1).1 (parse_cmap_name cm lx1).2 := by
            simp only [parse_cmapF, hro, if_neg hn1, if_pos hn2]
          rw [hres, hsnd]
          exact ih (parse_cmap_name cm lx1).1 lx2 (by omega) (by omega)
        · have hres : parse_cmapF (f + 1) cm lx = parse_cmapF f cm lx1 := by
            simp only [parse_cmapF, hro, if_neg hn1, if_neg hn2]
          rw [hres]
          exact ih cm lx1 (by omega) (by omega)
    | command cmd =>
      have hstrict : lx.position < lx1.position := by
        rcases hprog1 with he | hlt
        · exact absurd he (by simp)
        · exact hlt
      by_cases hc1 : cmd = strCodes "endcmap"
      · have hres : parse_cmapF (f + 1) cm lx = PRes.pok cm := by
          simp only [parse_cmapF, hro, if_pos hc1]
        rw [hres]
        exact fun hq => PRes.noConfusion hq
      · by_cases hc2 : cmd = strCodes "begincodespacerange"
        · obtain ⟨hnoof, hpok⟩ := parse_codespace_rangeF_spec lx1.fuel cm lx1
            (by show lx1.input.length + 2 - lx1.position ≤ lx1.input.length + 2; omega)
            (by omega)
          cases hd : parse_codespace_rangeF lx1.fuel cm lx1 with
          | oof => exact absurd hd hnoof
          | perr =>
            have hres : parse_cmapF (f + 1) cm lx = PRes.perr := by
              simp only [parse_cmapF, hro, if_neg hc1, if_pos hc2, hd]
            rw [hres]
            exact fun hq => PRes.noConfusion hq
          | pok s =>
            rcases s with ⟨cm1, lx2⟩
            obtain ⟨j1, j2, j3⟩ := hpok cm1 lx2 hd
            have hL2 : lx2.input.length = lx.input.length := by rw [j1, hin1']
            have hres : parse_cmapF (f + 1) cm lx = parse_cmapF f cm1 lx2 := by
              simp only [parse_cmapF, hro, if_neg hc1, if_pos hc2, hd]
            rw [hres]
            exact ih cm1 lx2 (by omega) (by omega)
        · by_cases hc3 : cmd = strCodes "beginbfchar"
          · obtain ⟨hnoof, hpok⟩ := parse_bf_charF_spec lx1.fuel cm lx1
              (by show lx1.input.length + 2 - lx1.position ≤ lx1.input.length + 2; omega)
              (by omega)
            cases hd : parse_bf_charF lx1.fuel cm lx1 with
            | oof => exact absurd hd hnoof
            | perr =>
              have hres : parse_cmapF (f + 1) cm lx = PRes.perr := by
                simp only [parse_cmapF, hro, if_neg hc1, if_neg hc2, if_pos hc3, hd]
              rw [hres]
              exact fun hq => PRes.noConfusion hq
            | pok s =>
              rcases s with ⟨cm1, lx2⟩
              obtain ⟨j1, j2, j3⟩ := hpok cm1 lx2 hd
              have hL2 : lx2.input.length = lx.input.length := by rw [j1, hin1']
              have hres : parse_cmapF (f + 1) cm lx = parse_cmapF f cm1 lx2 := by
                simp only [parse_cmapF, hro, if_neg hc1, if_neg hc2, if_pos hc3, hd]
              rw [hres]
              exact ih cm1 lx2 (by omega) (by omega)
          · by_cases hc4 : cmd = strCodes "begincidchar"
            · obtain ⟨hnoof, hpok⟩ := parse_cid_charF_spec lx1.fuel cm lx1
                (by show lx1.input.length + 2 - lx1.position ≤ lx1.input.length + 2; omega)
                (by omega)
              cases hd : parse_cid_charF lx1.fuel cm lx1 with
              | oof => exact absurd hd hnoof
              | perr =>
                have hres : parse_cmapF (f + 1) cm lx = PRes.perr := by
                  simp only [parse_cmapF, hro, if_neg hc1, if_neg hc2, if_neg hc3,
                    if_pos hc4, hd]
                rw [hres]
                exact fun hq => PRes.noConfusion hq
              | pok s =>
                rcases s with ⟨cm1, lx2⟩
                obtain ⟨j1, j2, j3⟩ := hpok cm1 lx2 hd
                have hL2 : lx2.input.length = lx.input.length := by rw [j1, hin1']
                have hres : parse_cmapF (f + 1) cm lx = parse_cmapF f cm1 lx2 := by
                  simp only [parse_cmapF, hro, if_neg hc1, if_neg hc2, if_neg hc3,
                    if_pos hc4, hd]
                rw [hres]
                exact ih cm1 lx2 (by omega) (by omega)
            · by_cases hc5 : cmd = strCodes "beginbfrange"
              · obtain ⟨hnoof, hpok⟩ := parse_bf_rangeF_spec lx1.fuel cm lx1
                  (by
                    show lx1.input.length + 2 - lx1.position ≤ lx1.input.length + 2
                    omega)
                  (by omega)
                cases hd : parse_bf_rangeF lx1.fuel cm lx1 with
                | oof => exact absurd hd hnoof
                | perr =>
                  have hres : parse_cmapF (f + 1) cm lx = PRes.perr := by
                    simp only [parse_cmapF, hro, if_neg hc1, if_neg hc2, if_neg hc3,
                      if_neg hc4, if_pos hc5, hd]
                  rw [hres]
                  exact fun hq => PRes.noConfusion hq
                | pok s =>
                  rcases s with ⟨cm1, lx2⟩
                  obtain ⟨j1, j2, j3⟩ := hpok cm1 lx2 hd
                  have hL2 : lx2.input.length = lx.input.length := by rw [j1, hin1']
                  have hres : parse_cmapF (f + 1) cm lx = parse_cmapF f cm1 lx2 := by
                    simp only [parse_cmapF, hro, if_neg hc1, if_neg hc2, if_neg hc3,
                      if_neg hc4, if_pos hc5, hd]
                  rw [hres]
                  exact ih cm1 lx2 (by omega) (by omega)
              · by_cases hc6 : cmd = strCodes "begincidrange"
                · obtain ⟨hnoof, hpok⟩ := parse_cid_rangeF_spec lx1.fuel cm lx1
                    (by
                      show lx1.input.length + 2 - lx1.position ≤ lx1.input.length + 2
                      omega)
                    (by omega)
                  cases hd : parse_cid_rangeF lx1.fuel cm lx1 with
                  | oof => exact absurd hd hnoof
                  | perr =>
                    have hres : parse_cmapF (f + 1) cm lx = PRes.perr := by
                      simp only [parse_cmapF, hro, if_neg hc1, if_neg hc2, if_neg hc3,
                        if_neg hc4, if_neg hc5, if_pos hc6, hd]
                    rw [hres]
                    exact fun hq => PRes.noConfusion hq
                  | pok s =>
                    rcases s with ⟨cm1, lx2⟩
                    obtain ⟨j1, j2, j3⟩ := hpok cm1 lx2 hd
                    have hL2 : lx2.input.length = lx.input.length := by rw [j1, hin1']
                    have hres : parse_cmapF (f + 1) cm lx = parse_cmapF f cm1 lx2 := by
                      simp only [parse_cmapF, hro, if_neg hc1, if_neg hc2, if_neg hc3,
                        if_neg hc4, if_neg hc5, if_pos hc6, hd]
                    rw [hres]
                    exact ih cm1 lx2 (by omega) (by omega)
                · have hres : parse_cmapF (f + 1) cm lx = parse_cmapF f cm lx1 := by
                    simp only [parse_cmapF, hro, if_neg hc1, if_neg hc2, if_neg hc3,
                      if_neg hc4, if_neg hc5, if_neg hc6]
                  rw [hres]
                  exact ih cm lx1 (by omega) (by omega)

/-- C10: the textual CMap parser terminates on every finite input.  First,
every `get_obj` call either returns `Token.eof` or strictly advances the
lexer position; in particular an unmatched top-level `)`, `\x7b` or `\x7d`
delimiter produces an empty token that is reported as `Token.eof` without
advancing, which ends the top-level loop.  Second, the fuelled embedding of
the top-level directive loop of `parse_cmap` never exhausts its canonical
fuel `input.length + 2` (`PRes.oof` is the out-of-fuel marker), so the
source loop, which this fuelled recursion simulates step for step, always
reaches `Eof` or a terminating command on every input. -/
theorem c10_parse_cmap_terminates :
    (∀ lx : Lexer,
      (get_obj lx).1 = Token.eof ∨ lx.position < (get_obj lx).2.position) ∧
    ((get_obj ⟨strCodes ")", 0⟩).1 = Token.eof ∧
      (get_obj ⟨strCodes ")", 0⟩).2.position = 0 ∧
      (get_obj ⟨strCodes "\x7b", 0⟩).1 = Token.eof ∧
      (get_obj ⟨strCodes "\x7d", 0⟩).1 = Token.eof) ∧
    (∀ input : List Nat,
      parse_cmapF (input.length + 2) CMap.new ⟨input, 0⟩ ≠ PRes.oof) := by
  refine ⟨get_obj_progress, by decide, fun input => ?_⟩
  exact parse_cmapF_spec (input.length + 2) CMap.new ⟨input, 0⟩
    (by show input.length + 2 - 0 ≤ input.length + 2; omega)
    (by show (0 : Nat) ≤ input.length + 1; omega)

end Hayro

